import Mathlib

/-!
Formal model of the fraud-detection banking system (`src/fraud_detection.c`).

The C program keeps, per customer, a B-tree (minimum degree `T = 3`) of
transactions ordered by `time_key`, a chained hash map from customer ids to
customer records, and a fraud analyzer running a velocity check and a
high-value-transaction scan.

Modelling conventions:
* C `long long`/`int`/`time_t` values become `Int`; C `float` amounts become `ℚ`
  (the comparisons performed by the program are order comparisons, which agree).
* A `BTreeNode *` is the inductive `BTree`: `null` for the null pointer, and
  `node ts cs leaf` for a node whose live key slots `transactions[0..n)` are the
  list `ts` and whose live child slots `children[0..n]` are the list `cs`
  (missing entries of `cs` stand for `NULL` slots and are read back as `null`
  by `childAt`).  `createBTreeNode` produces `node [] [] leaf`.
* Array writes `children[i] = c` become `setChild cs i c`, which pads the list
  with `null` up to slot `i` as the C array's unused slots hold `NULL`.
* The recursion of `BTreeInsertNonFull` descends into freshly split nodes, so
  it is given explicit fuel; the public entry point `insertTransaction` passes
  the height of the tree, which bounds the recursion depth of the C function.
-/

/-- A bank transaction (C struct `Transaction`). -/
structure Transaction where
  time_key : Int
  id : Int
  amount : ℚ
  date_time : Int
  type : Char
  counterparty_id : Int
  channel : String
  terminal_id : Int
deriving Repr, DecidableEq, Inhabited

/-- Minimum degree of the B-tree (C macro `T`). -/
def T : Nat := 3

/-- Maximum number of keys per node (C macro `MAX_TRANSACTIONS`, = 5). -/
def MAX_TRANSACTIONS : Nat := 2 * T - 1

/-- Number of hash buckets (C macro `HASH_MAP_SIZE`). -/
def HASH_MAP_SIZE : Int := 100

/-- C macro `SECONDS_IN_HOUR`. -/
def SECONDS_IN_HOUR : Int := 3600

/-- C macro `TXN_LIMIT_PER_HOUR` (critical velocity threshold). -/
def TXN_LIMIT_PER_HOUR : Nat := 25

/-- C macro `TXN_WARNING_THRESHOLD` (warning velocity threshold). -/
def TXN_WARNING_THRESHOLD : Nat := 15

/-- Ordering of transactions by their B-tree key `time_key`. -/
def tkLe (a b : Transaction) : Prop := a.time_key ≤ b.time_key

instance (a b : Transaction) : Decidable (tkLe a b) := by
  unfold tkLe
  infer_instance

/-- A B-tree node pointer (C `BTreeNode *`): either `NULL` or a node with its
live keys, live children and leaf flag. -/
inductive BTree where
  | null : BTree
  | node (transactions : List Transaction) (children : List BTree) (is_leaf : Bool) : BTree
deriving Repr

/-- Whether the pointer is `NULL`. -/
def isNull : BTree → Bool
  | .null => true
  | .node _ _ _ => false

/-- The key count `x->n` of a node (0 for `NULL`). -/
def numKeys : BTree → Nat
  | .null => 0
  | .node ts _ _ => ts.length

/-- Read child slot `i` of a node's child array; slots beyond the tracked list
are `NULL`. -/
def childAt (cs : List BTree) (i : Nat) : BTree :=
  cs.getD i BTree.null

/-- Write child slot `i` (C `children[i] = c`), padding with `NULL` slots. -/
def setChild (cs : List BTree) (i : Nat) (c : BTree) : List BTree :=
  (cs ++ List.replicate (i + 1 - cs.length) BTree.null).set i c

mutual

/-- The in-order traversal of `printBTreeTransactions`: for each node, child 0,
key 0, child 1, key 1, …, key n−1, child n. -/
def inorder : BTree → List Transaction
  | .null => []
  | .node ts cs _ => inorderNode ts cs
termination_by structural x => x

/-- Traversal of one node's live keys and children.  When no live children
remain all child slots are `NULL`, so only the keys are yielded. -/
def inorderNode : List Transaction → List BTree → List Transaction
  | [], [] => []
  | t :: ts, [] => t :: ts
  | [], c :: _ => inorder c
  | t :: ts, c :: cs => inorder c ++ t :: inorderNode ts cs
termination_by structural ts cs => cs
end

mutual

/-- C `findTransactionByID`: depth-first scan for a transaction id, visiting,
in each node, key 0, child 0, key 1, child 1, …, then child n. -/
def findTransactionByID : BTree → Int → Option Transaction
  | .null, _ => none
  | .node ts cs _, transactionId => findInNode ts cs transactionId
termination_by structural x => x

/-- Scan of one node's live keys and children.  When no live children remain
all child slots are `NULL`, so the scan is a linear search of the keys. -/
def findInNode : List Transaction → List BTree → Int → Option Transaction
  | [], [], _ => none
  | t :: ts, [], tid => (t :: ts).find? (fun a => a.id == tid)
  | [], c :: _, tid => findTransactionByID c tid
  | t :: ts, c :: cs, tid =>
      if t.id = tid then some t
      else
        match findTransactionByID c tid with
        | some r => some r
        | none => findInNode ts cs tid
termination_by structural ts cs tid => cs
end

mutual

/-- C `checkVelocitySpike`: traverses in order counting transactions with
`date_time ≥ cutoff_time`, but returns early from a node as soon as one key is
older than the cutoff. -/
def checkVelocitySpike : BTree → Int → Nat
  | .null, _ => 0
  | .node ts cs _, cutoff_time => velocityNode ts cs cutoff_time
termination_by structural x => x

/-- One node of the velocity scan.  With no live children the loop reduces to
counting the keys up to the first one older than the cutoff. -/
def velocityNode : List Transaction → List BTree → Int → Nat
  | [], [], _ => 0
  | t :: ts, [], cutoff => ((t :: ts).takeWhile (fun a => decide (cutoff ≤ a.date_time))).length
  | [], c :: _, cutoff => checkVelocitySpike c cutoff
  | t :: ts, c :: cs, cutoff =>
      let count := checkVelocitySpike c cutoff
      if cutoff ≤ t.date_time then count + 1 + velocityNode ts cs cutoff
      else count
termination_by structural ts cs cutoff => cs
end

/-- The number of stored transactions with `date_time ≥ cutoff` — the count
`checkVelocitySpike` is specified to compute. -/
def recentCount (x : BTree) (cutoff : Int) : Nat :=
  ((inorder x).filter (fun a => decide (cutoff ≤ a.date_time))).length

/-- The debit-alert condition of `checkTransactionSpike`:
`type == 'D' && amount > debit_threshold`. -/
def isDebitAlert (debit_threshold : ℚ) (a : Transaction) : Bool :=
  decide (a.type = 'D' ∧ debit_threshold < a.amount)

/-- The credit-alert condition of `checkTransactionSpike`:
`type == 'C' && amount > credit_threshold`. -/
def isCreditAlert (credit_threshold : ℚ) (a : Transaction) : Bool :=
  decide (a.type = 'C' ∧ credit_threshold < a.amount)

mutual

/-- C `checkTransactionSpike`: in-order traversal collecting the debit alerts
and the credit alerts (the C code prints them and bumps the two counters; the
model returns the two alert lists, whose lengths are the counters). -/
def checkTransactionSpike : BTree → ℚ → ℚ → List Transaction × List Transaction
  | .null, _, _ => ([], [])
  | .node ts cs _, dthr, cthr => spikeNode ts cs dthr cthr
termination_by structural x => x

/-- One node of the high-value scan.  With no live children the if/else-if of
the loop reduces to the two filters (the two conditions test different `type`
tags, so they are mutually exclusive). -/
def spikeNode : List Transaction → List BTree → ℚ → ℚ → List Transaction × List Transaction
  | [], [], _, _ => ([], [])
  | t :: ts, [], dthr, cthr =>
      ((t :: ts).filter (isDebitAlert dthr), (t :: ts).filter (isCreditAlert cthr))
  | [], c :: _, dthr, cthr => checkTransactionSpike c dthr cthr
  | t :: ts, c :: cs, dthr, cthr =>
      let pc := checkTransactionSpike c dthr cthr
      let pr := spikeNode ts cs dthr cthr
      if isDebitAlert dthr t then (pc.1 ++ t :: pr.1, pc.2 ++ pr.2)
      else if isCreditAlert cthr t then (pc.1 ++ pr.1, pc.2 ++ t :: pr.2)
      else (pc.1 ++ pr.1, pc.2 ++ pr.2)
termination_by structural ts cs dthr cthr => cs
end

mutual

/-- Height of a tree (`NULL` has height 0); bounds the recursion depth of the
C insertion routine. -/
def height : BTree → Nat
  | .null => 0
  | .node _ cs _ => 1 + heightChildren cs
termination_by structural x => x

/-- Maximum height among a list of children. -/
def heightChildren : List BTree → Nat
  | [] => 0
  | c :: cs => max (height c) (heightChildren cs)
termination_by structural cs => cs
end

/-- The body of the right-to-left shift loop of `BTreeInsertNonFull` on a leaf,
acting on the reversed key list: keys with `time_key > key` are shifted past
the new transaction, which lands after the last key `≤` its key. -/
def leafInsertLoop (t : Transaction) : List Transaction → List Transaction
  | [] => [t]
  | a :: rest =>
      if a.time_key > t.time_key then a :: leafInsertLoop t rest
      else t :: a :: rest

/-- Insertion of a transaction into a leaf's key array (the `is_leaf` branch of
`BTreeInsertNonFull`). -/
def leafInsert (t : Transaction) (ts : List Transaction) : List Transaction :=
  (leafInsertLoop t ts.reverse).reverse

/-- The child index computed by the descent loop of `BTreeInsertNonFull`:
`i` starts at `n − 1`, moves left past keys with `time_key > key`, then is
incremented — so it is `n` minus the length of the maximal suffix of keys
strictly greater than `key`. -/
def childIndex (key : Int) (ts : List Transaction) : Nat :=
  ts.length - (ts.reverse.takeWhile (fun a => decide (a.time_key > key))).length

/-- C `BTreeSplitChild` acting on the parent's key and child lists: splits the
full child at slot `i` into its low half `y` (kept in slot `i`), the median
(inserted into the parent's keys at position `i`), and the high half `z`
(inserted into the parent's children at position `i + 1`). -/
def BTreeSplitChild (ts : List Transaction) (cs : List BTree) (i : Nat) :
    List Transaction × List BTree :=
  match childAt cs i with
  | .null => (ts, cs)
  | .node yts ycs yleaf =>
      let z : BTree := .node ((yts.drop T).take (T - 1))
                             (if yleaf then [] else (ycs.drop T).take T) yleaf
      let y : BTree := .node (yts.take (T - 1)) (ycs.take T) yleaf
      let cs1 := setChild cs i y
      (ts.take i ++ yts.getD (T - 1) default :: ts.drop i,
       cs1.take (i + 1) ++ z :: cs1.drop (i + 1))

/-- C `BTreeInsertNonFull` with explicit fuel (the C recursion descends one
level per call, so any fuel `≥ height x` is enough; out of fuel the tree is
returned unchanged, a case never reached from `insertTransaction`). -/
def BTreeInsertNonFull : Nat → BTree → Transaction → BTree
  | 0, x, _ => x
  | _ + 1, .null, _ => .null
  | fuel + 1, .node ts cs is_leaf, t =>
      if is_leaf then .node (leafInsert t ts) cs is_leaf
      else
        let i := childIndex t.time_key ts
        let cs0 := if isNull (childAt cs i) then setChild cs i (.node [] [] true) else cs
        if numKeys (childAt cs0 i) = MAX_TRANSACTIONS then
          match BTreeSplitChild ts cs0 i with
          | (ts1, cs1) =>
              let i1 := if (ts1.getD i default).time_key < t.time_key then i + 1 else i
              .node ts1 (setChild cs1 i1 (BTreeInsertNonFull fuel (childAt cs1 i1) t)) is_leaf
        else
          .node ts (setChild cs0 i (BTreeInsertNonFull fuel (childAt cs0 i) t)) is_leaf

/-- C `insertTransaction`: replaces a `NULL` root by a fresh leaf, splits a
full root under a fresh internal root, then runs the non-full insertion. -/
def insertTransaction (root : BTree) (t : Transaction) : BTree :=
  let r := if isNull root then BTree.node [] [] true else root
  if numKeys r = MAX_TRANSACTIONS then
    match BTreeSplitChild [] [r] 0 with
    | (ts1, cs1) =>
        let s := BTree.node ts1 cs1 false
        BTreeInsertNonFull (height s) s t
  else
    BTreeInsertNonFull (height r) r t

/-- The root of the tree obtained by inserting a list of transactions, in
order, into a fresh customer's empty b-tree (`createBTreeNode(true)`). -/
def buildRoot (txns : List Transaction) : BTree :=
  txns.foldl insertTransaction (BTree.node [] [] true)

/-- A customer record (C struct `Customer`); the hash-chain `next` pointer is
modelled by the bucket lists of the directory. -/
structure Customer where
  id : Int
  name : String
  b_tree_root : BTree
  debit_threshold : ℚ
  credit_threshold : ℚ

/-- 32-bit wraparound of a signed integer (two's complement). -/
def wrap32 (x : Int) : Int :=
  (x + 2 ^ 31) % 2 ^ 32 - 2 ^ 31

/-- C `hashFunction`: negates a negative id (with 32-bit wraparound, as the C
`int` negation of `INT_MIN` overflows) and takes the C `%` remainder, which
has the sign of its dividend. -/
def hashFunction (customerId : Int) : Int :=
  let a := if customerId < 0 then wrap32 (-customerId) else customerId
  Int.tmod a HASH_MAP_SIZE

/-- The contents of the 100-slot bucket array of C struct `HashMap` (slot →
chain of customers, most recently inserted first).  Only the array's slots
`0 ≤ index < HASH_MAP_SIZE` are ever read or written: both directory
operations compute the slot with `hashFunction` and index the array with it,
so every access is gated on that bound below, and an access outside it — C
indexes out of the array's bounds — is modelled as failure. -/
def HMap := Int → List Customer

/-- The empty directory. -/
def emptyMap : HMap := fun _ => []

/-- Prepending a record to the chain of its hash slot — the effect of
`insertCustomer`'s two pointer writes once `table[index]` is a real slot. -/
def bucketInsert (map : HMap) (newCustomer : Customer) : HMap :=
  fun b => if b = hashFunction newCustomer.id then newCustomer :: map b else map b

/-- C `insertCustomer`: compute `index = hashFunction(id)` and prepend the
record to `table[index]`; an out-of-range index (the C writes out of the
array's bounds) is failure. -/
def insertCustomer (map : HMap) (newCustomer : Customer) : Option HMap :=
  let index := hashFunction newCustomer.id
  if 0 ≤ index ∧ index < HASH_MAP_SIZE then some (bucketInsert map newCustomer)
  else none

/-- C `findCustomer`: compute `index = hashFunction(id)` and walk the chain at
`table[index]`, returning the first record whose id matches; an out-of-range
index (the C reads out of the array's bounds) is failure. -/
def findCustomer (map : HMap) (customerId : Int) : Option (Option Customer) :=
  let index := hashFunction customerId
  if 0 ≤ index ∧ index < HASH_MAP_SIZE then
    some ((map index).find? (fun c => c.id == customerId))
  else none

/-- The directory built by inserting a list of customers, in order; `none`
when any insert indexed out of the array's bounds. -/
def buildMap (customers : List Customer) : Option HMap :=
  customers.foldlM insertCustomer emptyMap

/-- Severity of the velocity finding printed by `analyzeCustomerForFraud`. -/
inductive VelocityLevel where
  | Critical
  | Warning
  | Normal
deriving Repr, DecidableEq

/-- The observable outcome of `analyzeCustomerForFraud`: the velocity count
and level, the two alert lists printed by `checkTransactionSpike`, and the two
counters used for the summary. -/
structure FraudReport where
  velocity_count : Nat
  velocity_level : VelocityLevel
  debit_alerts : List Transaction
  credit_alerts : List Transaction
  debit_fraud_count : Nat
  credit_fraud_count : Nat
deriving Repr, DecidableEq

/-- C `analyzeCustomerForFraud` on a found customer: an empty b-tree is
reported as nothing to analyze; otherwise one velocity scan with cutoff
`now − 3600` and one high-value scan.  A critical velocity additionally
increments `debit_fraud_count` ("treat hitting the hard limit as a major
incident"). -/
def analyzeCustomerForFraud (customer : Customer) (now : Int) : FraudReport :=
  if isNull customer.b_tree_root || numKeys customer.b_tree_root == 0 then
    ⟨0, .Normal, [], [], 0, 0⟩
  else
    let cutoff_time := now - SECONDS_IN_HOUR
    let velocity_count := checkVelocitySpike customer.b_tree_root cutoff_time
    let alerts := checkTransactionSpike customer.b_tree_root
        customer.debit_threshold customer.credit_threshold
    { velocity_count := velocity_count
      velocity_level :=
        if velocity_count ≥ TXN_LIMIT_PER_HOUR then .Critical
        else if velocity_count ≥ TXN_WARNING_THRESHOLD then .Warning
        else .Normal
      debit_alerts := alerts.1
      credit_alerts := alerts.2
      debit_fraud_count :=
        (if velocity_count ≥ TXN_LIMIT_PER_HOUR then 1 else 0) + alerts.1.length
      credit_fraud_count := alerts.2.length }

/-- Outcome of `handleAddTransaction` after the duplicate-id pre-check. -/
inductive AddTxnResult where
  | ok (newRoot : BTree)
  | duplicateTransactionId

/-- The transaction-insertion path of C `handleAddTransaction`: the insert is
refused when `findTransactionByID` hits the requested id, and performed
otherwise. -/
def handleAddTransaction (root : BTree) (t : Transaction) : AddTxnResult :=
  if (findTransactionByID root t.id).isSome then .duplicateTransactionId
  else .ok (insertTransaction root t)

/-- The customer's b-tree root after `handleAddTransaction` (unchanged when
the duplicate id was refused, as the C handler returns before inserting). -/
def rootAfterAdd (root : BTree) (t : Transaction) : BTree :=
  match handleAddTransaction root t with
  | .ok newRoot => newRoot
  | .duplicateTransactionId => root

/-- Well-formedness of a subtree of the customer b-tree: `Struct m h x` says
`x` is a (non-`NULL`) node of uniform leaf depth `h` whose top node has
between `m` and `MAX_TRANSACTIONS` keys, every deeper node having between
`T − 1 = 2` and `MAX_TRANSACTIONS = 5`, internal nodes having exactly one more
live child than keys, and leaves having no live children. -/
inductive Struct : Nat → Nat → BTree → Prop where
  | leaf (m : Nat) (ts : List Transaction)
      (hm : m ≤ ts.length) (hmax : ts.length ≤ MAX_TRANSACTIONS) :
      Struct m 1 (.node ts [] true)
  | node (m h : Nat) (ts : List Transaction) (cs : List BTree)
      (hm : m ≤ ts.length) (hmax : ts.length ≤ MAX_TRANSACTIONS)
      (hlen : cs.length = ts.length + 1)
      (hall : ∀ c ∈ cs, Struct (T - 1) h c) :
      Struct m (h + 1) (.node ts cs false)

/-- Well-formedness of a customer's b-tree root: fresh roots are leaves with
any number of keys up to the maximum; once the root is internal it holds at
least one key. -/
def RootWF (x : BTree) : Prop :=
  ∃ h, Struct 0 h x ∧ (∀ ts cs, x = BTree.node ts cs false → 1 ≤ ts.length)

mutual

/-- Claim-level predicate: within every node the keys are sorted by
`time_key`. -/
def nodesSorted : BTree → Prop
  | .null => True
  | .node ts cs _ => List.Pairwise tkLe ts ∧ nodesSortedChildren cs
termination_by structural x => x

/-- `nodesSorted` for every tree of a child list. -/
def nodesSortedChildren : List BTree → Prop
  | [] => True
  | c :: cs => nodesSorted c ∧ nodesSortedChildren cs
termination_by structural cs => cs
end

mutual

/-- Claim-level predicate: every node below the root holds between `T − 1 = 2`
and `2T − 1 = 5` keys. -/
def keyCountOK : BTree → Prop
  | .null => True
  | .node ts cs _ =>
      T - 1 ≤ ts.length ∧ ts.length ≤ MAX_TRANSACTIONS ∧ keyCountChildren cs
termination_by structural x => x

/-- `keyCountOK` for every tree of a child list. -/
def keyCountChildren : List BTree → Prop
  | [] => True
  | c :: cs => keyCountOK c ∧ keyCountChildren cs
termination_by structural cs => cs
end

/-- Claim-level predicate: the root holds between 0 and `2T − 1 = 5` keys and
every other node between `T − 1 = 2` and `2T − 1 = 5`. -/
def keyCountRootOK : BTree → Prop
  | .null => True
  | .node ts cs _ => ts.length ≤ MAX_TRANSACTIONS ∧ keyCountChildren cs

mutual

/-- Claim-level predicate: every leaf of the tree sits at depth `h` (the root
at depth 1); below an internal node there are no `NULL` children. -/
def uniformDepth : BTree → Nat → Prop
  | .null, _ => False
  | .node _ _ true, h => h = 1
  | .node _ cs false, h =>
      match h with
      | 0 => False
      | h' + 1 => uniformDepthChildren cs h'
termination_by structural x => x

/-- `uniformDepth` at depth `h` for every tree of a child list. -/
def uniformDepthChildren : List BTree → Nat → Prop
  | [], _ => True
  | c :: cs, h => uniformDepth c h ∧ uniformDepthChildren cs h
termination_by structural cs => cs
end

mutual

/-- Claim-level predicate: in every node, all keys stored in subtree
`children[i]` are `≤ keys[i].time_key`, and all keys stored in
`children[i+1]` are `≥ keys[i].time_key`. -/
def separationOK : BTree → Prop
  | .null => True
  | .node ts cs _ =>
      (∀ i < ts.length,
        (∀ a ∈ inorder (childAt cs i), a.time_key ≤ (ts.getD i default).time_key) ∧
        (∀ b ∈ inorder (childAt cs (i + 1)), (ts.getD i default).time_key ≤ b.time_key)) ∧
      separationChildren cs
termination_by structural x => x

/-- `separationOK` for every tree of a child list. -/
def separationChildren : List BTree → Prop
  | [] => True
  | c :: cs => separationOK c ∧ separationChildren cs
termination_by structural cs => cs
end

/-- A concrete transaction for the test scenarios: id, time key, timestamp,
amount and type, with fixed counterparty, channel and terminal. -/
def mkTx (i tk dt : Int) (amount : ℚ) (ty : Char) : Transaction :=
  { time_key := tk, id := i, amount := amount, date_time := dt, type := ty,
    counterparty_id := 0, channel := "WEB", terminal_id := 1 }

/-- The six transactions of the root-split scenario: ids 1…6, time keys
10…60. -/
def scenarioSix : List Transaction :=
  [mkTx 1 10 10 100 'D', mkTx 2 20 20 100 'D', mkTx 3 30 30 100 'D',
   mkTx 4 40 40 100 'D', mkTx 5 50 50 100 'D', mkTx 6 60 60 100 'D']

/-- A customer whose stored transactions straddle a cutoff: one at time 10,
one at time 20 (time keys `date_time * 10^6`, as `generateTransaction`
builds them). -/
def straddleRoot : BTree :=
  buildRoot [mkTx 1 10000000 10 100 'D', mkTx 2 20000000 20 100 'D']

/-- Twenty-five low-value debit transactions all at time 100 (a burst within
the velocity window). -/
def burst25 : List Transaction :=
  (List.range 25).map (fun j => mkTx (j + 1) (100 * 1000000 + j) 100 1 'D')

/-- A customer holding the 25-transaction burst, with thresholds 5000. -/
def burstCustomer : Customer :=
  { id := 1, name := "A", b_tree_root := buildRoot burst25,
    debit_threshold := 5000, credit_threshold := 5000 }

/-- The `is_leaf` flag of a node (`true` for `NULL`, which is never consulted). -/
def leafFlag : BTree → Bool
  | .null => true
  | .node _ _ l => l

/-- A customer as created by `createCustomer` followed by a sequence of
transaction insertions. -/
def mkCustomer (cid : Int) (name : String) (txns : List Transaction)
    (debit_thr credit_thr : ℚ) : Customer :=
  { id := cid, name := name, b_tree_root := buildRoot txns,
    debit_threshold := debit_thr, credit_threshold := credit_thr }

/-- Transaction `j` of the 25-transaction burst. -/
def burstTx (j : Int) : Transaction := mkTx j (100000000 + (j - 1)) 100 1 'D'

/-- The b-tree holding the 25-transaction burst — the value of
`buildRoot burst25`, written out. -/
def burstRootLit : BTree :=
  .node [burstTx 9]
    [.node [burstTx 3, burstTx 6]
       [.node [burstTx 1, burstTx 2] [] true,
        .node [burstTx 4, burstTx 5] [] true,
        .node [burstTx 7, burstTx 8] [] true] false,
     .node [burstTx 12, burstTx 15, burstTx 18, burstTx 21]
       [.node [burstTx 10, burstTx 11] [] true,
        .node [burstTx 13, burstTx 14] [] true,
        .node [burstTx 16, burstTx 17] [] true,
        .node [burstTx 19, burstTx 20] [] true,
        .node [burstTx 22, burstTx 23, burstTx 24, burstTx 25] [] true] false]
    false

/-- A customer holding the 25-transaction burst tree, thresholds 5000. -/
def burstCustomerLit : Customer :=
  { id := 1, name := "A", b_tree_root := burstRootLit,
    debit_threshold := 5000, credit_threshold := 5000 }

/-- A fresh customer with an empty b-tree, for the directory scenarios. -/
def demoCustomer (cid : Int) : Customer :=
  { id := cid, name := "A", b_tree_root := .node [] [] true,
    debit_threshold := 1000, credit_threshold := 1000 }

/-! ### Basic facts about the ordering, the traversal and the child arrays -/

theorem tkLe_refl (a : Transaction) : tkLe a a := le_refl _

theorem tkLe_trans {a b c : Transaction} (h1 : tkLe a b) (h2 : tkLe b c) : tkLe a c :=
  le_trans h1 h2

instance : IsTrans Transaction tkLe := ⟨fun _ _ _ => tkLe_trans⟩

instance : IsRefl Transaction tkLe := ⟨tkLe_refl⟩

/-- Induction over `BTree` with the inductive hypothesis for every child. -/
theorem BTree.recMem {motive : BTree → Prop}
    (hnull : motive .null)
    (hnode : ∀ ts cs leaf, (∀ c ∈ cs, motive c) → motive (.node ts cs leaf)) :
    ∀ x, motive x
  | .null => hnull
  | .node ts cs leaf =>
      hnode ts cs leaf (fun c hc => BTree.recMem hnull hnode c)
termination_by x => sizeOf x
decreasing_by
  have := List.sizeOf_lt_of_mem hc
  simp only [BTree.node.sizeOf_spec]
  omega

theorem mem_of_head?_eq {α} {l : List α} {a : α} (h : l.head? = some a) : a ∈ l := by
  cases l with
  | nil => simp at h
  | cons x xs =>
    simp at h
    subst h
    exact List.mem_cons_self _ _

theorem pairwise_le_getLast {P : List Transaction} {k : Transaction}
    (hp : List.Pairwise tkLe P) (hk : P.getLast? = some k) :
    ∀ a ∈ P, tkLe a k := by
  induction P with
  | nil => simp at hk
  | cons p P ih =>
    cases P with
    | nil =>
      simp at hk
      subst hk
      intro a ha
      simp at ha
      subst ha
      exact tkLe_refl _
    | cons q Q =>
      rw [List.getLast?_cons_cons] at hk
      intro a ha
      rcases List.mem_cons.mp ha with rfl | ha'
      · have hkmem : k ∈ q :: Q := by
          obtain ⟨ys, hys⟩ := List.getLast?_eq_some_iff.mp hk
          rw [hys]
          simp
        exact (List.pairwise_cons.mp hp).1 k hkmem
      · exact ih (List.pairwise_cons.mp hp).2 hk a ha'

theorem pairwise_head_le {Q : List Transaction} {k : Transaction}
    (hp : List.Pairwise tkLe Q) (hk : Q.head? = some k) :
    ∀ b ∈ Q, tkLe k b := by
  cases Q with
  | nil => simp at hk
  | cons q Q' =>
    simp at hk
    subst hk
    intro b hb
    rcases List.mem_cons.mp hb with rfl | hb'
    · exact tkLe_refl _
    · exact (List.pairwise_cons.mp hp).1 b hb'

theorem dropWhile_head?_false {α} {p : α → Bool} :
    ∀ {l : List α} {a}, (l.dropWhile p).head? = some a → p a = false := by
  intro l
  induction l with
  | nil => simp [List.dropWhile]
  | cons x xs ih =>
    intro a h
    rw [List.dropWhile_cons] at h
    by_cases hx : p x
    · rw [if_pos hx] at h
      exact ih h
    · rw [if_neg hx] at h
      simp at h
      subst h
      simpa using hx

@[simp] theorem inorder_null : inorder .null = [] := rfl

@[simp] theorem inorder_node (ts cs leaf) : inorder (.node ts cs leaf) = inorderNode ts cs := rfl

@[simp] theorem inorderNode_nil_nil : inorderNode [] [] = [] := rfl

@[simp] theorem inorderNode_keys (ts : List Transaction) : inorderNode ts [] = ts := by
  cases ts <;> rfl

@[simp] theorem inorderNode_nil_cons (c : BTree) (cs : List BTree) :
    inorderNode [] (c :: cs) = inorder c := rfl

@[simp] theorem inorderNode_cons_cons (t : Transaction) (ts : List Transaction)
    (c : BTree) (cs : List BTree) :
    inorderNode (t :: ts) (c :: cs) = inorder c ++ t :: inorderNode ts cs := rfl

@[simp] theorem childAt_nil (i : Nat) : childAt [] i = .null := by
  cases i <;> rfl

@[simp] theorem childAt_cons_zero (c : BTree) (cs : List BTree) : childAt (c :: cs) 0 = c := rfl

@[simp] theorem childAt_cons_succ (c : BTree) (cs : List BTree) (i : Nat) :
    childAt (c :: cs) (i + 1) = childAt cs i := rfl

theorem setChild_eq_set {cs : List BTree} {i : Nat} (h : i < cs.length) (c : BTree) :
    setChild cs i c = cs.set i c := by
  unfold setChild
  have h0 : i + 1 - cs.length = 0 := by omega
  rw [h0]
  simp

theorem childAt_mem {cs : List BTree} {i : Nat} (h : i < cs.length) : childAt cs i ∈ cs := by
  induction cs generalizing i with
  | nil => simp at h
  | cons c cs ih =>
    cases i with
    | zero => simp
    | succ j =>
      rw [childAt_cons_succ]
      exact List.mem_cons_of_mem _ (ih (by simpa using h))

/-! ### The high-value scan computes the two filters of the traversal -/

theorem isDebitAlert_not_credit (dthr cthr : ℚ) {t : Transaction}
    (h : isDebitAlert dthr t = true) : isCreditAlert cthr t = false := by
  simp only [isDebitAlert, decide_eq_true_eq] at h
  simp [isCreditAlert, h.1]

theorem spikeNode_eq (dthr cthr : ℚ) :
    ∀ (cs : List BTree) (ts : List Transaction),
      (∀ c ∈ cs, checkTransactionSpike c dthr cthr =
        ((inorder c).filter (isDebitAlert dthr), (inorder c).filter (isCreditAlert cthr))) →
      spikeNode ts cs dthr cthr =
        ((inorderNode ts cs).filter (isDebitAlert dthr),
         (inorderNode ts cs).filter (isCreditAlert cthr)) := by
  intro cs
  induction cs with
  | nil =>
    intro ts _
    cases ts with
    | nil => rfl
    | cons t ts => rfl
  | cons c cs ih =>
    intro ts hall
    have hc := hall c (List.mem_cons_self _ _)
    cases ts with
    | nil =>
      rw [inorderNode_nil_cons]
      exact hc
    | cons t ts =>
      have hr := ih ts (fun c' hc' => hall c' (List.mem_cons_of_mem _ hc'))
      rw [inorderNode_cons_cons]
      by_cases hd : isDebitAlert dthr t = true
      · have hcnot := isDebitAlert_not_credit dthr cthr hd
        simp [spikeNode, hc, hr, hd, hcnot, List.filter_append, List.filter_cons]
      · by_cases hcr : isCreditAlert cthr t = true
        · simp [spikeNode, hc, hr, hd, hcr, List.filter_append, List.filter_cons]
        · simp [spikeNode, hc, hr, hd, hcr, List.filter_append, List.filter_cons]

theorem checkTransactionSpike_eq (x : BTree) (dthr cthr : ℚ) :
    checkTransactionSpike x dthr cthr =
      ((inorder x).filter (isDebitAlert dthr), (inorder x).filter (isCreditAlert cthr)) := by
  induction x using BTree.recMem with
  | hnull => rfl
  | hnode ts cs leaf ih =>
    rw [inorder_node]
    exact spikeNode_eq dthr cthr cs ts ih

/-! ### `findTransactionByID` finds exactly the stored ids -/

theorem findInNode_isSome_iff :
    ∀ (cs : List BTree) (ts : List Transaction) (tid : Int),
      (∀ c ∈ cs, ((findTransactionByID c tid).isSome = true ↔ ∃ tr ∈ inorder c, tr.id = tid)) →
      ((findInNode ts cs tid).isSome = true ↔ ∃ tr ∈ inorderNode ts cs, tr.id = tid) := by
  intro cs
  induction cs with
  | nil =>
    intro ts _
    cases ts with
    | nil => simp [findInNode]
    | cons t ts =>
      rw [inorderNode_keys]
      simp [findInNode, List.find?_isSome]
  | cons c cs ih =>
    intro ts tid hall
    have hc := hall c (List.mem_cons_self _ _)
    cases ts with
    | nil =>
      rw [inorderNode_nil_cons]
      exact hc
    | cons t ts =>
      have hr := ih ts tid (fun c' hc' => hall c' (List.mem_cons_of_mem _ hc'))
      rw [inorderNode_cons_cons]
      by_cases ht : t.id = tid
      · simp only [findInNode, if_pos ht, Option.isSome_some, true_iff]
        exact ⟨t, by simp, ht⟩
      · rw [show findInNode (t :: ts) (c :: cs) tid =
            (match findTransactionByID c tid with
             | some r => some r
             | none => findInNode ts cs tid) from by
          simp [findInNode, if_neg ht]]
        cases hfc : findTransactionByID c tid with
        | some r =>
          simp only [Option.isSome_some, true_iff]
          have : (findTransactionByID c tid).isSome = true := by simp [hfc]
          obtain ⟨tr, htr, hid⟩ := hc.mp this
          exact ⟨tr, by simp [htr], hid⟩
        | none =>
          rw [hr]
          constructor
          · rintro ⟨tr, htr, hid⟩
            exact ⟨tr, by simp [htr], hid⟩
          · rintro ⟨tr, htr, hid⟩
            rcases List.mem_append.mp htr with hl | hrr
            · exact absurd (hc.mpr ⟨tr, hl, hid⟩) (by simp [hfc])
            · rcases List.mem_cons.mp hrr with rfl | hmem
              · exact absurd hid ht
              · exact ⟨tr, hmem, hid⟩

theorem find_isSome_iff (x : BTree) (tid : Int) :
    ((findTransactionByID x tid).isSome = true ↔ ∃ tr ∈ inorder x, tr.id = tid) := by
  induction x using BTree.recMem with
  | hnull => simp [findTransactionByID]
  | hnode ts cs leaf ih =>
    rw [inorder_node]
    exact findInNode_isSome_iff cs ts tid ih

/-! ### Customer directory lemmas -/

theorem bucketFind_insert (map : HMap) (c : Customer) (i : Int) :
    ((bucketInsert map c) (hashFunction i)).find? (fun x => x.id == i) =
      if c.id = i then some c
      else (map (hashFunction i)).find? (fun x => x.id == i) := by
  unfold bucketInsert
  by_cases hb : hashFunction i = hashFunction c.id
  · rw [if_pos hb]
    by_cases hc : c.id = i
    · simp [hc]
    · simp [hc, hb]
  · have hne : c.id ≠ i := fun h => hb (by rw [h])
    rw [if_neg hb, if_neg hne]

theorem bucketFind_foldl (i : Int) :
    ∀ (customers : List Customer) (map : HMap),
      ((customers.foldl bucketInsert map) (hashFunction i)).find? (fun c => c.id == i) =
        (customers.reverse.find? (fun c => c.id == i)).or
          ((map (hashFunction i)).find? (fun c => c.id == i)) := by
  intro customers
  induction customers with
  | nil => simp
  | cons c cs ih =>
    intro map
    rw [List.foldl_cons, ih, bucketFind_insert]
    rw [List.reverse_cons, List.find?_append]
    by_cases hc : c.id = i
    · simp [hc, Option.or_assoc]
    · simp [hc, Option.or_assoc]

theorem buildMap_inrange :
    ∀ (customers : List Customer) (map : HMap),
      (∀ c ∈ customers, 0 ≤ hashFunction c.id ∧ hashFunction c.id < HASH_MAP_SIZE) →
      customers.foldlM insertCustomer map = some (customers.foldl bucketInsert map) := by
  intro customers
  induction customers with
  | nil => intro map _; rfl
  | cons c cs ih =>
    intro map hall
    rw [List.foldlM_cons]
    unfold insertCustomer
    rw [if_pos (hall c (by simp))]
    rw [List.foldl_cons]
    exact ih (bucketInsert map c) (fun c' hc' => hall c' (by simp [hc']))

theorem findCustomer_inrange (map : HMap) (i : Int)
    (h : 0 ≤ hashFunction i ∧ hashFunction i < HASH_MAP_SIZE) :
    findCustomer map i =
      some ((map (hashFunction i)).find? (fun c => c.id == i)) := by
  unfold findCustomer
  rw [if_pos h]

/-! ### Claim theorems: velocity bug, scenarios, duplicate ids, directory, hash -/

/-- C1 (code bug witnessed): on the customer tree holding one transaction at
time 10 and one at time 20 (a tree built by two inserts), with cutoff 15,
`checkVelocitySpike` returns 0 although exactly one stored transaction has
`date_time ≥ 15`: the early termination stops at the older transaction and
prunes the newer ones, which sit to its right in the ascending order. -/
theorem fd_C1_velocity_undercount :
    checkVelocitySpike straddleRoot 15 = 0 ∧ recentCount straddleRoot 15 = 1 := by
  constructor <;> decide

/-- C7: inserting six transactions with time keys 10…60 (ids 1…6) into an
empty OTI yields an internal root with the single key 30 over two leaves
holding {10, 20} and {40, 50, 60}, and the history lists ids 1…6 in order. -/
theorem fd_C7_root_split_scenario :
    buildRoot scenarioSix =
      BTree.node [mkTx 3 30 30 100 'D']
        [BTree.node [mkTx 1 10 10 100 'D', mkTx 2 20 20 100 'D'] [] true,
         BTree.node [mkTx 4 40 40 100 'D', mkTx 5 50 50 100 'D',
                     mkTx 6 60 60 100 'D'] [] true]
        false ∧
    (inorder (buildRoot scenarioSix)).map Transaction.id = [1, 2, 3, 4, 5, 6] :=
  ⟨rfl, by decide⟩

/-- C8: `handleAddTransaction` refuses the insert with `DuplicateTransactionId`
exactly when `findTransactionByID` hits a stored transaction with the requested
id, and on that refusal the customer's OTI — hence its history length — is
unchanged. -/
theorem fd_C8_duplicate_id (root : BTree) (t : Transaction) :
    (handleAddTransaction root t = .duplicateTransactionId ↔
      ∃ tr ∈ inorder root, tr.id = t.id) ∧
    (handleAddTransaction root t = .duplicateTransactionId →
      rootAfterAdd root t = root ∧
      (inorder (rootAfterAdd root t)).length = (inorder root).length) := by
  constructor
  · unfold handleAddTransaction
    by_cases h : (findTransactionByID root t.id).isSome = true
    · rw [if_pos h]
      simpa using (find_isSome_iff root t.id).mp h
    · rw [if_neg h]
      constructor
      · intro hcontra
        exact absurd hcontra (by simp)
      · intro hex
        exact absurd ((find_isSome_iff root t.id).mpr hex) h
  · intro hdup
    unfold rootAfterAdd
    rw [hdup]
    exact ⟨rfl, rfl⟩

/-- Witness for C8 at scenario 5: adding id 7 twice — the second
`handleAddTransaction` is refused as a duplicate and leaves the tree and its
history length unchanged. -/
theorem fd_C8_witness :
    rootAfterAdd (buildRoot [mkTx 7 777 10 100 'D']) (mkTx 7 778 11 50 'C') =
      buildRoot [mkTx 7 777 10 100 'D'] ∧
    (inorder (rootAfterAdd (buildRoot [mkTx 7 777 10 100 'D']) (mkTx 7 778 11 50 'C'))).length =
      (inorder (buildRoot [mkTx 7 777 10 100 'D'])).length :=
  (fd_C8_duplicate_id (buildRoot [mkTx 7 777 10 100 'D']) (mkTx 7 778 11 50 'C')).2 rfl

/-- C9 (counterexample): a single add_customer call with the most negative
32-bit id computes bucket index −48 — outside the 100-slot array — so the
insert is an out-of-bounds write and no directory containing that id is
delivered, although the claim covers every directory built by add_customer
calls with pairwise distinct ids. -/
theorem fd_C9_out_of_range_counterexample :
    buildMap [demoCustomer (-(2 ^ 31))] = none ∧
    hashFunction (demoCustomer (-(2 ^ 31))).id = -48 :=
  ⟨rfl, by decide⟩

/-- C9 (amended): for customers with pairwise distinct ids whose bucket
indices are all in range (every representable id except −2^31), the directory
is built, `findCustomer` returns exactly the record added under the looked-up
id — also when distinct ids share a bucket — and reports an id never added
(whose own bucket index is in range) as absent. -/
theorem fd_C9_directory_lookup (customers : List Customer) (i : Int)
    (hdistinct : customers.Pairwise (fun a b => a.id ≠ b.id))
    (hrange : ∀ c ∈ customers,
      0 ≤ hashFunction c.id ∧ hashFunction c.id < HASH_MAP_SIZE)
    (hi : 0 ≤ hashFunction i ∧ hashFunction i < HASH_MAP_SIZE) :
    ∃ m, buildMap customers = some m ∧
      (∀ c ∈ customers, c.id = i → findCustomer m i = some (some c)) ∧
      ((∀ c ∈ customers, c.id ≠ i) → findCustomer m i = some none) := by
  refine ⟨customers.foldl bucketInsert emptyMap,
    buildMap_inrange customers emptyMap hrange, ?_, ?_⟩
  · intro c hc hid
    have hfold := bucketFind_foldl i customers emptyMap
    have hsome : (customers.reverse.find? (fun c => c.id == i)).isSome = true := by
      rw [List.find?_isSome]
      exact ⟨c, List.mem_reverse.mpr hc, by simp [hid]⟩
    obtain ⟨c', hfind⟩ := Option.isSome_iff_exists.mp hsome
    have hc'mem : c' ∈ customers := List.mem_reverse.mp (List.mem_of_find?_eq_some hfind)
    have hc'id : c'.id = i := by simpa using List.find?_some hfind
    have hcc' : c = c' := by
      by_contra hne
      exact (List.Pairwise.forall (fun x y h => (h ∘ Eq.symm)) hdistinct hc hc'mem hne)
        (hid.trans hc'id.symm)
    rw [findCustomer_inrange _ _ hi, hfold, hfind, hcc']
    rfl
  · intro hnone
    have hfold := bucketFind_foldl i customers emptyMap
    have hfn : customers.reverse.find? (fun c => c.id == i) = none := by
      rw [List.find?_eq_none]
      intro c hc
      simpa using hnone c (List.mem_reverse.mp hc)
    rw [findCustomer_inrange _ _ hi, hfold, hfn]
    rfl

/-- Witness for C9 (amended) at scenario 6: ids 1, 101 and 201 all hash to
bucket 1 of the 100-slot array; the directory is built and id 101 is
retrieved, all hypotheses holding at this input. -/
theorem fd_C9_witness :
    ([demoCustomer 1, demoCustomer 101, demoCustomer 201].Pairwise
      (fun a b => a.id ≠ b.id)) ∧
    (∀ c ∈ [demoCustomer 1, demoCustomer 101, demoCustomer 201],
      0 ≤ hashFunction c.id ∧ hashFunction c.id < HASH_MAP_SIZE) ∧
    (0 ≤ hashFunction 101 ∧ hashFunction 101 < HASH_MAP_SIZE) ∧
    (∃ m, buildMap [demoCustomer 1, demoCustomer 101, demoCustomer 201] = some m ∧
      (∀ c ∈ [demoCustomer 1, demoCustomer 101, demoCustomer 201],
        c.id = 101 → findCustomer m 101 = some (some c)) ∧
      ((∀ c ∈ [demoCustomer 1, demoCustomer 101, demoCustomer 201], c.id ≠ 101) →
        findCustomer m 101 = some none)) :=
  ⟨by decide, by decide, by decide,
    fd_C9_directory_lookup [demoCustomer 1, demoCustomer 101, demoCustomer 201] 101
      (by decide) (by decide) (by decide)⟩

/-- C10 (counterexample): under 32-bit wraparound, negating the most negative
`int` is the identity, so `hashFunction` of `−2^31` is the negative C remainder
`−48`, not a bucket index in `[0, 100)`. -/
theorem fd_C10_counterexample :
    hashFunction (-(2 ^ 31)) = -48 ∧ ¬ (0 ≤ hashFunction (-(2 ^ 31))) := by
  constructor <;> decide

/-- C10 (amended): for every representable 32-bit id other than `−2^31`,
`hashFunction` returns a bucket index in `[0, 100)`. -/
theorem fd_C10_hash_range_amended (customerId : Int)
    (hlo : -(2 ^ 31) ≤ customerId) (hhi : customerId < 2 ^ 31)
    (hne : customerId ≠ -(2 ^ 31)) :
    0 ≤ hashFunction customerId ∧ hashFunction customerId < 100 := by
  unfold hashFunction HASH_MAP_SIZE
  by_cases hneg : customerId < 0
  · rw [if_pos hneg]
    have hw : wrap32 (-customerId) = -customerId := by
      unfold wrap32
      rw [Int.emod_eq_of_lt (by omega) (by omega)]
      omega
    rw [hw]
    exact ⟨Int.tmod_nonneg _ (by omega), Int.tmod_lt_of_pos _ (by norm_num)⟩
  · rw [if_neg hneg]
    exact ⟨Int.tmod_nonneg _ (by omega), Int.tmod_lt_of_pos _ (by norm_num)⟩

/-- Witness for C10 (amended) at `−123`: the bucket index is in range. -/
theorem fd_C10_witness :
    0 ≤ hashFunction (-123) ∧ hashFunction (-123) < 100 :=
  fd_C10_hash_range_amended (-123) (by decide) (by decide) (by decide)

/-! ### Structural invariant: basic facts -/

theorem Struct_pos {m h : Nat} {x : BTree} (hs : Struct m h x) : 1 ≤ h := by
  cases hs <;> omega

theorem Struct_not_null {m h : Nat} {x : BTree} (hs : Struct m h x) : isNull x = false := by
  cases hs <;> rfl

theorem Struct_mono {m m' h : Nat} {x : BTree} (hs : Struct m h x) (hm : m' ≤ numKeys x) :
    Struct m' h x := by
  cases hs with
  | leaf m ts h1 h2 => exact Struct.leaf m' ts (by simpa [numKeys] using hm) h2
  | node m h0 ts cs h1 h2 hlen hall =>
      exact Struct.node m' h0 ts cs (by simpa [numKeys] using hm) h2 hlen hall

theorem Struct_leaf_inv {m h : Nat} {ts : List Transaction} {cs : List BTree}
    (hs : Struct m h (.node ts cs true)) :
    cs = [] ∧ h = 1 ∧ m ≤ ts.length ∧ ts.length ≤ MAX_TRANSACTIONS := by
  cases hs with
  | leaf _ _ h1 h2 => exact ⟨rfl, rfl, h1, h2⟩

theorem Struct_node_inv {m h : Nat} {ts : List Transaction} {cs : List BTree}
    (hs : Struct m h (.node ts cs false)) :
    ∃ h0, h = h0 + 1 ∧ m ≤ ts.length ∧ ts.length ≤ MAX_TRANSACTIONS ∧
      cs.length = ts.length + 1 ∧ ∀ c ∈ cs, Struct (T - 1) h0 c := by
  cases hs with
  | node _ h0 _ _ h1 h2 hlen hall => exact ⟨h0, rfl, h1, h2, hlen, hall⟩

theorem heightChildren_eq {cs : List BTree} {h0 : Nat}
    (hne : cs ≠ []) (hall : ∀ c ∈ cs, height c = h0) : heightChildren cs = h0 := by
  induction cs with
  | nil => exact absurd rfl hne
  | cons c cs ih =>
    cases cs with
    | nil => simp [heightChildren, hall c (by simp)]
    | cons c2 cs2 =>
      have h1 : heightChildren (c2 :: cs2) = h0 :=
        ih (by simp) (fun c' hc' => hall c' (List.mem_cons_of_mem _ hc'))
      rw [heightChildren, h1, hall c (by simp)]
      simp

theorem Struct_height {m h : Nat} {x : BTree} (hs : Struct m h x) : height x = h := by
  induction hs with
  | leaf m ts h1 h2 => simp [height, heightChildren]
  | node m h0 ts cs h1 h2 hlen hall ih =>
    have hne : cs ≠ [] := by
      intro hnil
      rw [hnil] at hlen
      simp at hlen
    rw [height, heightChildren_eq hne ih]
    omega

/-! ### The descent index: front/back decomposition of the node keys -/

theorem frontBack_eq {α} (p : α → Bool) (l : List α) :
    (l.reverse.dropWhile p).reverse ++ (l.reverse.takeWhile p).reverse = l := by
  rw [← List.reverse_append, List.takeWhile_append_dropWhile, List.reverse_reverse]

theorem back_mem_sat {α} {p : α → Bool} {l : List α} {b : α}
    (hb : b ∈ (l.reverse.takeWhile p).reverse) : p b = true :=
  List.mem_takeWhile_imp (List.mem_reverse.mp hb)

theorem front_getLast_not {α} {p : α → Bool} {l : List α} {a : α}
    (ha : ((l.reverse.dropWhile p).reverse).getLast? = some a) : p a = false := by
  rw [List.getLast?_reverse] at ha
  exact dropWhile_head?_false ha

theorem childIndex_eq (key : Int) (ts : List Transaction) :
    childIndex key ts
      = ((ts.reverse.dropWhile (fun a => decide (a.time_key > key))).reverse).length := by
  unfold childIndex
  have hl := congrArg List.length (List.takeWhile_append_dropWhile
    (p := fun a => decide (a.time_key > key)) (l := ts.reverse))
  simp only [List.length_append, List.length_reverse] at hl ⊢
  omega

theorem childIndex_le (key : Int) (ts : List Transaction) :
    childIndex key ts ≤ ts.length := by
  unfold childIndex
  omega

theorem childIndex_take (key : Int) (ts : List Transaction) :
    ts.take (childIndex key ts)
      = (ts.reverse.dropWhile (fun a => decide (a.time_key > key))).reverse := by
  have h := @List.take_left' _
      ((ts.reverse.dropWhile (fun a => decide (a.time_key > key))).reverse)
      ((ts.reverse.takeWhile (fun a => decide (a.time_key > key))).reverse)
      (childIndex key ts) (childIndex_eq key ts).symm
  rw [frontBack_eq] at h
  exact h

theorem childIndex_drop (key : Int) (ts : List Transaction) :
    ts.drop (childIndex key ts)
      = (ts.reverse.takeWhile (fun a => decide (a.time_key > key))).reverse := by
  have h := @List.drop_left' _
      ((ts.reverse.dropWhile (fun a => decide (a.time_key > key))).reverse)
      ((ts.reverse.takeWhile (fun a => decide (a.time_key > key))).reverse)
      (childIndex key ts) (childIndex_eq key ts).symm
  rw [frontBack_eq] at h
  exact h

/-! ### Insertion into a leaf's key array -/

theorem leafInsertLoop_eq (t : Transaction) :
    ∀ rl : List Transaction,
      leafInsertLoop t rl =
        rl.takeWhile (fun a => decide (a.time_key > t.time_key)) ++
          t :: rl.dropWhile (fun a => decide (a.time_key > t.time_key)) := by
  intro rl
  induction rl with
  | nil => rfl
  | cons a rest ih =>
    rw [leafInsertLoop, List.takeWhile_cons, List.dropWhile_cons]
    by_cases ha : a.time_key > t.time_key
    · rw [if_pos ha, ih]
      simp [ha]
    · rw [if_neg ha]
      simp [ha]

theorem leafInsert_perm (t : Transaction) (ts : List Transaction) :
    (leafInsert t ts).Perm (t :: ts) := by
  unfold leafInsert
  rw [leafInsertLoop_eq]
  refine (List.reverse_perm _).trans ?_
  refine List.perm_middle.trans ?_
  rw [List.takeWhile_append_dropWhile]
  exact List.Perm.cons t (List.reverse_perm ts)

theorem leafInsert_length (t : Transaction) (ts : List Transaction) :
    (leafInsert t ts).length = ts.length + 1 := by
  simpa using (leafInsert_perm t ts).length_eq

theorem leafInsert_sorted {t : Transaction} {ts : List Transaction}
    (hs : List.Pairwise tkLe ts) : List.Pairwise tkLe (leafInsert t ts) := by
  unfold leafInsert
  rw [leafInsertLoop_eq, List.reverse_append, List.reverse_cons]
  have hs2 : List.Pairwise tkLe
      ((ts.reverse.dropWhile (fun a => decide (a.time_key > t.time_key))).reverse ++
        (ts.reverse.takeWhile (fun a => decide (a.time_key > t.time_key))).reverse) := by
    rw [frontBack_eq]
    exact hs
  rw [List.pairwise_append] at hs2
  obtain ⟨hF, hB, hcross⟩ := hs2
  have hFt : ∀ a ∈ (ts.reverse.dropWhile (fun x => decide (x.time_key > t.time_key))).reverse,
      tkLe a t := by
    intro a ha
    cases hlast : ((ts.reverse.dropWhile (fun x => decide (x.time_key > t.time_key))).reverse).getLast? with
    | none =>
      rw [List.getLast?_eq_none_iff] at hlast
      rw [hlast] at ha
      simp at ha
    | some k =>
      have hk : k.time_key ≤ t.time_key := by
        have := front_getLast_not hlast
        simp at this
        omega
      exact tkLe_trans (pairwise_le_getLast hF hlast a ha) hk
  have htB : ∀ b ∈ (ts.reverse.takeWhile (fun x => decide (x.time_key > t.time_key))).reverse,
      tkLe t b := by
    intro b hb
    have := back_mem_sat hb
    simp at this
    unfold tkLe
    omega
  rw [List.pairwise_append]
  refine ⟨?_, ?_, ?_⟩
  · rw [List.pairwise_append]
    exact ⟨hF, by simp, by intro a ha b hb; simp at hb; rw [hb]; exact hFt a ha⟩
  · exact hB
  · intro a ha b hb
    rcases List.mem_append.mp ha with haF | hat
    · exact hcross a haF b hb
    · simp at hat
      rw [hat]
      exact htB b hb

/-! ### Decomposition of a node traversal around one child slot -/

theorem getLast?_append_cons {α} (A : List α) (b : α) (B : List α) :
    (A ++ b :: B).getLast? = (b :: B).getLast? := by
  rw [List.getLast?_append]
  cases hB : (b :: B).getLast? with
  | none =>
    rw [List.getLast?_eq_none_iff] at hB
    cases hB
  | some k => rfl

theorem getLast?_cons_eq {α} {P M : List α} (t : α) (h : P.getLast? = M.getLast?) :
    (t :: P).getLast? = (t :: M).getLast? := by
  cases hp : P.getLast? with
  | none =>
    have hm : M.getLast? = none := h ▸ hp
    rw [List.getLast?_eq_none_iff] at hp hm
    rw [hp, hm]
  | some k =>
    have hm : M.getLast? = some k := h ▸ hp
    obtain ⟨ys, hys⟩ := List.getLast?_eq_some_iff.mp hp
    obtain ⟨zs, hzs⟩ := List.getLast?_eq_some_iff.mp hm
    rw [hys, hzs]
    rw [show t :: (ys ++ [k]) = (t :: ys) ++ [k] from rfl, List.getLast?_concat]
    rw [show t :: (zs ++ [k]) = (t :: zs) ++ [k] from rfl, List.getLast?_concat]

theorem inorderNode_set_decomp :
    ∀ (i : Nat) (ts : List Transaction) (cs : List BTree),
      cs.length = ts.length + 1 → i < cs.length →
      ∃ P Q : List Transaction,
        (∀ c, inorderNode ts (cs.set i c) = P ++ (inorder c ++ Q)) ∧
        inorderNode ts cs = P ++ (inorder (childAt cs i) ++ Q) ∧
        P.getLast? = (ts.take i).getLast? ∧
        Q.head? = (ts.drop i).head? := by
  intro i
  induction i with
  | zero =>
    intro ts cs hlen hi
    cases cs with
    | nil => simp at hi
    | cons c0 cs0 =>
      cases ts with
      | nil =>
        have hcs0 : cs0 = [] := by simpa using hlen
        subst hcs0
        exact ⟨[], [], fun c => by simp, by simp, by simp, by simp⟩
      | cons t ts1 =>
        exact ⟨[], t :: inorderNode ts1 cs0, fun c => by simp, by simp, by simp, by simp⟩
  | succ j ih =>
    intro ts cs hlen hi
    cases cs with
    | nil => simp at hi
    | cons c0 cs0 =>
      cases ts with
      | nil =>
        exfalso
        have hcs0 : cs0 = [] := by simpa using hlen
        subst hcs0
        simp at hi
      | cons t ts1 =>
        have hlen1 : cs0.length = ts1.length + 1 := by simpa using hlen
        have hi1 : j < cs0.length := by simpa using hi
        obtain ⟨P, Q, heqset, heq, hP, hQ⟩ := ih ts1 cs0 hlen1 hi1
        refine ⟨inorder c0 ++ t :: P, Q, ?_, ?_, ?_, ?_⟩
        · intro c
          rw [List.set_cons_succ, inorderNode_cons_cons, heqset c]
          simp
        · rw [childAt_cons_succ, inorderNode_cons_cons, heq]
          simp
        · rw [List.take_succ_cons, getLast?_append_cons]
          exact getLast?_cons_eq t hP
        · rw [List.drop_succ_cons]
          exact hQ

/-! ### Replacing one child block of a traversal -/

theorem perm_replace_block {P X Q X' : List Transaction} {t : Transaction}
    (hx : X'.Perm (t :: X)) :
    (P ++ (X' ++ Q)).Perm (t :: (P ++ (X ++ Q))) := by
  refine (List.Perm.append_left P (hx.append_right Q)).trans ?_
  rw [show (t :: X) ++ Q = t :: (X ++ Q) from rfl]
  exact List.perm_middle

theorem pairwise_replace_block {P X Q X' : List Transaction} {t : Transaction}
    (hp : List.Pairwise tkLe (P ++ (X ++ Q)))
    (hx' : List.Pairwise tkLe X')
    (hmem : ∀ b ∈ X', b = t ∨ b ∈ X)
    (hPt : ∀ a ∈ P, tkLe a t)
    (htQ : ∀ b ∈ Q, tkLe t b) :
    List.Pairwise tkLe (P ++ (X' ++ Q)) := by
  rw [List.pairwise_append] at hp
  obtain ⟨hPp, hXQ, hcross⟩ := hp
  rw [List.pairwise_append] at hXQ
  obtain ⟨hX, hQ, hXQcross⟩ := hXQ
  rw [List.pairwise_append]
  refine ⟨hPp, ?_, ?_⟩
  · rw [List.pairwise_append]
    refine ⟨hx', hQ, ?_⟩
    intro a ha b hb
    rcases hmem a ha with rfl | haX
    · exact htQ b hb
    · exact hXQcross a haX b hb
  · intro a ha b hb
    rcases List.mem_append.mp hb with hbX' | hbQ
    · rcases hmem b hbX' with rfl | hbX
      · exact hPt a ha
      · exact hcross a ha b (List.mem_append_left _ hbX)
    · exact hcross a ha b (List.mem_append_right _ hbQ)

/-! ### The split protocol: computation and preservation facts -/

theorem splitChild_eq (ts : List Transaction) {cs : List BTree} {i : Nat}
    {yts : List Transaction} {ycs : List BTree} {yleaf : Bool}
    (hchild : childAt cs i = .node yts ycs yleaf) :
    BTreeSplitChild ts cs i =
      (ts.take i ++ yts.getD (T - 1) default :: ts.drop i,
       (setChild cs i (.node (yts.take (T - 1)) (ycs.take T) yleaf)).take (i + 1)
         ++ BTree.node ((yts.drop T).take (T - 1))
              (if yleaf then [] else (ycs.drop T).take T) yleaf
           :: (setChild cs i (.node (yts.take (T - 1)) (ycs.take T) yleaf)).drop (i + 1)) := by
  unfold BTreeSplitChild
  rw [hchild]

theorem setChild_cons_zero (c0 : BTree) (cs0 : List BTree) (y : BTree) :
    setChild (c0 :: cs0) 0 y = y :: cs0 := by
  unfold setChild
  have h0 : 0 + 1 - (c0 :: cs0).length = 0 := by simp
  rw [h0]
  simp

theorem setChild_cons_succ (c0 : BTree) (cs0 : List BTree) (j : Nat) (y : BTree) :
    setChild (c0 :: cs0) (j + 1) y = c0 :: setChild cs0 j y := by
  unfold setChild
  have harith : j + 1 + 1 - (c0 :: cs0).length = j + 1 - cs0.length := by
    simp only [List.length_cons]
    omega
  rw [harith]
  simp [List.cons_append]

theorem childSplit_content (yts : List Transaction) (ycs : List BTree) (yleaf : Bool)
    (h5 : yts.length = 2 * T - 1)
    (hleaf : yleaf = true → ycs = [])
    (hinternal : yleaf = false → ycs.length = 2 * T) :
    inorder (.node (yts.take (T - 1)) (ycs.take T) yleaf)
      ++ yts.getD (T - 1) default ::
        inorder (.node ((yts.drop T).take (T - 1))
          (if yleaf then [] else (ycs.drop T).take T) yleaf)
    = inorderNode yts ycs := by
  rcases yts with _ | ⟨a, _ | ⟨b, _ | ⟨c, _ | ⟨d, _ | ⟨e, rest⟩⟩⟩⟩⟩ <;> simp [T] at h5
  have hrest : rest = [] := by simpa using h5
  subst hrest
  cases yleaf with
  | true =>
    have hnil := hleaf rfl
    subst hnil
    simp [T]
  | false =>
    have hy : ycs.length = 2 * T := hinternal rfl
    rcases ycs with _ | ⟨c0, _ | ⟨c1, _ | ⟨c2, _ | ⟨c3, _ | ⟨c4, _ | ⟨c5, crest⟩⟩⟩⟩⟩⟩ <;>
      simp [T] at hy
    have hcrest : crest = [] := by simpa using hy
    subst hcrest
    simp [T]

theorem splitChild_content :
    ∀ (i : Nat) (ts : List Transaction) (cs : List BTree)
      {yts : List Transaction} {ycs : List BTree} {yleaf : Bool},
      cs.length = ts.length + 1 → i < cs.length →
      childAt cs i = .node yts ycs yleaf →
      yts.length = 2 * T - 1 →
      (yleaf = true → ycs = []) →
      (yleaf = false → ycs.length = 2 * T) →
      inorderNode (BTreeSplitChild ts cs i).1 (BTreeSplitChild ts cs i).2
        = inorderNode ts cs := by
  intro i
  induction i with
  | zero =>
    intro ts cs yts ycs yleaf hlen hi hchild h5 hleaf hinternal
    cases cs with
    | nil => simp at hi
    | cons c0 cs0 =>
      have hc0 : c0 = .node yts ycs yleaf := by simpa using hchild
      subst hc0
      have hsplit : BTreeSplitChild ts (BTree.node yts ycs yleaf :: cs0) 0
          = (yts.getD (T - 1) default :: ts,
             BTree.node (yts.take (T - 1)) (ycs.take T) yleaf
               :: BTree.node ((yts.drop T).take (T - 1))
                    (if yleaf then [] else (ycs.drop T).take T) yleaf
               :: cs0) := by
        rw [splitChild_eq ts hchild, setChild_cons_zero]
        simp
      rw [hsplit]
      cases ts with
      | nil =>
        have hcs0 : cs0 = [] := by simpa using hlen
        subst hcs0
        rw [inorderNode_cons_cons, inorderNode_nil_cons, inorderNode_nil_cons]
        exact childSplit_content yts ycs yleaf h5 hleaf hinternal
      | cons t ts1 =>
        have hcc := childSplit_content yts ycs yleaf h5 hleaf hinternal
        rw [inorderNode_cons_cons, inorderNode_cons_cons, inorderNode_cons_cons]
        conv_rhs => rw [inorder_node, ← hcc]
        simp
  | succ j ih =>
    intro ts cs yts ycs yleaf hlen hi hchild h5 hleaf hinternal
    cases cs with
    | nil => simp at hi
    | cons c0 cs0 =>
      cases ts with
      | nil =>
        exfalso
        have hcs0 : cs0 = [] := by simpa using hlen
        subst hcs0
        simp at hi
      | cons t ts1 =>
        have hlen1 : cs0.length = ts1.length + 1 := by simpa using hlen
        have hi1 : j < cs0.length := by simpa using hi
        have hchild1 : childAt cs0 j = .node yts ycs yleaf := by simpa using hchild
        have hsplit : BTreeSplitChild (t :: ts1) (c0 :: cs0) (j + 1)
            = (t :: (BTreeSplitChild ts1 cs0 j).1, c0 :: (BTreeSplitChild ts1 cs0 j).2) := by
          rw [splitChild_eq (t :: ts1) hchild, splitChild_eq ts1 hchild1, setChild_cons_succ]
          simp
        rw [hsplit, inorderNode_cons_cons, inorderNode_cons_cons,
          ih ts1 cs0 hlen1 hi1 hchild1 h5 hleaf hinternal]

theorem splitChild_struct {h0 : Nat} {yts : List Transaction} {ycs : List BTree} {yleaf : Bool}
    (hs : Struct (T - 1) h0 (.node yts ycs yleaf)) (h5 : yts.length = 2 * T - 1) :
    Struct (T - 1) h0 (.node (yts.take (T - 1)) (ycs.take T) yleaf) ∧
    Struct (T - 1) h0 (.node ((yts.drop T).take (T - 1))
      (if yleaf then [] else (ycs.drop T).take T) yleaf) := by
  cases yleaf with
  | true =>
    obtain ⟨hcs, hh, _, _⟩ := Struct_leaf_inv hs
    subst hcs
    subst hh
    constructor
    · simp only [List.take_nil]
      exact Struct.leaf _ _ (by simp [T, h5, MAX_TRANSACTIONS])
        (by simp [T, h5, MAX_TRANSACTIONS])
    · simp only [if_pos rfl]
      exact Struct.leaf _ _ (by simp [T, h5, MAX_TRANSACTIONS])
        (by simp [T, h5, MAX_TRANSACTIONS])
  | false =>
    obtain ⟨h0', hh, _, _, hylen, hall⟩ := Struct_node_inv hs
    subst hh
    have hy6 : ycs.length = 2 * T := by
      rw [hylen, h5]
      decide
    constructor
    · refine Struct.node _ h0' _ _ (by simp [T, h5, MAX_TRANSACTIONS])
        (by simp [T, h5, MAX_TRANSACTIONS])
        (by simp [T, h5, hy6, MAX_TRANSACTIONS]) ?_
      intro c hc
      exact hall c (List.take_subset _ _ hc)
    · simp only [if_neg (by simp : ¬ false = true)]
      refine Struct.node _ h0' _ _ (by simp [T, h5, MAX_TRANSACTIONS])
        (by simp [T, h5, MAX_TRANSACTIONS])
        (by simp [T, h5, hy6, MAX_TRANSACTIONS]) ?_
      intro c hc
      exact hall c (List.drop_subset _ _ (List.take_subset _ _ hc))

theorem childAt_append_left {cs1 cs2 : List BTree} {i : Nat} (h : i < cs1.length) :
    childAt (cs1 ++ cs2) i = childAt cs1 i := by
  induction cs1 generalizing i with
  | nil => simp at h
  | cons c cs ih =>
    cases i with
    | zero => simp
    | succ j =>
      rw [List.cons_append, childAt_cons_succ, childAt_cons_succ]
      exact ih (by simpa using h)

theorem childAt_append_self (cs1 cs2 : List BTree) (z : BTree) :
    childAt (cs1 ++ z :: cs2) cs1.length = z := by
  induction cs1 with
  | nil => rfl
  | cons c cs ih => simpa using ih

theorem childAt_take {cs : List BTree} {n i : Nat} (h : i < n) :
    childAt (cs.take n) i = childAt cs i := by
  unfold childAt
  rw [List.getD_eq_getElem?_getD, List.getD_eq_getElem?_getD, List.getElem?_take_of_lt h]

theorem childAt_set_self {cs : List BTree} {i : Nat} (h : i < cs.length) (c : BTree) :
    childAt (cs.set i c) i = c := by
  unfold childAt
  rw [List.getD_eq_getElem?_getD, List.getElem?_set_self (by simpa using h)]
  rfl

/-! ### One step of the non-full insertion at an internal node -/

theorem insertNonFull_step_nosplit (fuel : Nat) (t : Transaction) (ts : List Transaction)
    (cs : List BTree) {j : Nat} (hj : j = childIndex t.time_key ts)
    (hnn : isNull (childAt cs j) = false)
    (hnf : ¬ numKeys (childAt cs j) = MAX_TRANSACTIONS) :
    BTreeInsertNonFull (fuel + 1) (.node ts cs false) t =
      .node ts (setChild cs j (BTreeInsertNonFull fuel (childAt cs j) t)) false := by
  subst hj
  simp only [BTreeInsertNonFull, Bool.false_eq_true, if_false, hnn, hnf]

theorem insertNonFull_step_split (fuel : Nat) (t : Transaction) (ts : List Transaction)
    (cs : List BTree) (ts1 : List Transaction) (cs1 : List BTree)
    {j : Nat} (hj : j = childIndex t.time_key ts)
    (hnn : isNull (childAt cs j) = false)
    (hf : numKeys (childAt cs j) = MAX_TRANSACTIONS)
    (hsp : BTreeSplitChild ts cs j = (ts1, cs1)) :
    BTreeInsertNonFull (fuel + 1) (.node ts cs false) t =
      .node ts1
        (setChild cs1
          (if (ts1.getD j default).time_key < t.time_key then j + 1 else j)
          (BTreeInsertNonFull fuel
            (childAt cs1
              (if (ts1.getD j default).time_key < t.time_key then j + 1 else j)) t))
        false := by
  subst hj
  simp only [BTreeInsertNonFull, Bool.false_eq_true, if_false, hnn, hf, if_pos, hsp]

theorem numKeys_le {m h : Nat} {x : BTree} (hs : Struct m h x) :
    numKeys x ≤ MAX_TRANSACTIONS := by
  cases hs with
  | leaf _ _ _ h2 => simpa [numKeys] using h2
  | node _ _ _ _ _ h2 _ _ => simpa [numKeys] using h2

/-- Replacing the child at slot `j` of an internal node by a tree holding the
same transactions plus one, whose key fits between the keys around slot `j`,
preserves the shape invariant, adds the transaction to the traversal, and
preserves sortedness. -/
theorem replace_child_pres {m h0 : Nat} (TS : List Transaction) (CS : List BTree)
    (j : Nat) (t : Transaction) (c' : BTree)
    (hm : m ≤ TS.length) (hmax : TS.length ≤ MAX_TRANSACTIONS)
    (hlen : CS.length = TS.length + 1)
    (hall : ∀ c ∈ CS, Struct (T - 1) h0 c)
    (hj : j < CS.length)
    (hstruct' : Struct (T - 1) h0 c')
    (hperm : (inorder c').Perm (t :: inorder (childAt CS j)))
    (hsorted' : List.Pairwise tkLe (inorder (childAt CS j)) →
      List.Pairwise tkLe (inorder c'))
    (hlow : ∀ a, (TS.take j).getLast? = some a → a.time_key ≤ t.time_key)
    (hhigh : ∀ b, (TS.drop j).head? = some b → t.time_key ≤ b.time_key) :
    Struct m (h0 + 1) (.node TS (setChild CS j c') false) ∧
    (inorder (.node TS (setChild CS j c') false)).Perm
      (t :: inorder (.node TS CS false)) ∧
    (List.Pairwise tkLe (inorder (.node TS CS false)) →
      List.Pairwise tkLe (inorder (.node TS (setChild CS j c') false))) := by
  rw [setChild_eq_set hj c']
  obtain ⟨P, Q, heqset, heq, hP, hQ⟩ := inorderNode_set_decomp j TS CS hlen hj
  have hpX_of : List.Pairwise tkLe (P ++ (inorder (childAt CS j) ++ Q)) →
      List.Pairwise tkLe (inorder (childAt CS j)) := fun hp =>
    (List.pairwise_append.mp ((List.pairwise_append.mp hp).2.1)).1
  refine ⟨?_, ?_, ?_⟩
  · refine Struct.node m h0 _ _ hm hmax (by simp [hlen]) ?_
    intro c hc
    rcases List.mem_or_eq_of_mem_set hc with hcold | rfl
    · exact hall c hcold
    · exact hstruct'
  · rw [inorder_node, inorder_node, heqset c', heq]
    exact perm_replace_block hperm
  · intro hp
    rw [inorder_node, heq] at hp
    rw [inorder_node, heqset c']
    refine pairwise_replace_block (t := t) hp (hsorted' (hpX_of hp)) ?_ ?_ ?_
    · intro b hb
      exact List.mem_cons.mp (hperm.mem_iff.mp hb)
    · intro a ha
      cases hlast : P.getLast? with
      | none =>
        rw [List.getLast?_eq_none_iff] at hlast
        subst hlast
        simp at ha
      | some k =>
        have hk : k.time_key ≤ t.time_key := hlow k (hP ▸ hlast)
        have hPp : List.Pairwise tkLe P := (List.pairwise_append.mp hp).1
        exact tkLe_trans (pairwise_le_getLast hPp hlast a ha) hk
    · intro b hb
      cases hhead : Q.head? with
      | none =>
        rw [List.head?_eq_none_iff] at hhead
        subst hhead
        simp at hb
      | some k =>
        have hk : t.time_key ≤ k.time_key := hhigh k (hQ ▸ hhead)
        have hQp : List.Pairwise tkLe Q :=
          (List.pairwise_append.mp ((List.pairwise_append.mp hp).2.1)).2.1
        exact tkLe_trans hk (pairwise_head_le hQp hhead b hb)

theorem take_append_cons_one {α} (A : List α) (b : α) (B : List α) :
    (A ++ b :: B).take (A.length + 1) = A ++ [b] := by
  rw [List.take_append]
  simp

theorem drop_append_cons_one {α} (A : List α) (b : α) (B : List α) :
    (A ++ b :: B).drop (A.length + 1) = B := by
  rw [List.drop_append]
  simp

/-- The heart of the verification: `BTreeInsertNonFull`, given enough fuel and
a non-full well-formed subtree, preserves the shape invariant and the leaf
flag, does not shrink the key count of the top node, adds exactly the new
transaction to the traversal, and preserves sortedness of the traversal. -/
theorem insertNonFull_pres :
    ∀ (fuel : Nat) (t : Transaction) (m h : Nat) (x : BTree),
      Struct m h x → h ≤ fuel → numKeys x < MAX_TRANSACTIONS →
      Struct m h (BTreeInsertNonFull fuel x t) ∧
      numKeys x ≤ numKeys (BTreeInsertNonFull fuel x t) ∧
      leafFlag (BTreeInsertNonFull fuel x t) = leafFlag x ∧
      (inorder (BTreeInsertNonFull fuel x t)).Perm (t :: inorder x) ∧
      (List.Pairwise tkLe (inorder x) →
        List.Pairwise tkLe (inorder (BTreeInsertNonFull fuel x t))) := by
  intro fuel
  induction fuel with
  | zero =>
    intro t m h x hs hf _
    have := Struct_pos hs
    omega
  | succ fuel ih =>
    intro t m h x hs hf hroom
    cases hs with
    | leaf _ ts hm hmax =>
      have hdef : BTreeInsertNonFull (fuel + 1) (BTree.node ts [] true) t
          = BTree.node (leafInsert t ts) [] true := by
        simp [BTreeInsertNonFull]
      rw [hdef]
      have hroom' : ts.length < MAX_TRANSACTIONS := by simpa [numKeys] using hroom
      refine ⟨?_, ?_, rfl, ?_, ?_⟩
      · exact Struct.leaf m _ (by rw [leafInsert_length]; omega)
          (by rw [leafInsert_length]; omega)
      · simp [numKeys, leafInsert_length]
      · simp only [inorder_node, inorderNode_keys]
        exact leafInsert_perm t ts
      · intro hp
        simp only [inorder_node, inorderNode_keys] at hp ⊢
        exact leafInsert_sorted hp
    | node _ h0 ts cs hm hmax hlen hall =>
      obtain ⟨j, hj⟩ : ∃ j, j = childIndex t.time_key ts := ⟨_, rfl⟩
      have hf0 : h0 ≤ fuel := by omega
      have hroom' : ts.length < MAX_TRANSACTIONS := by simpa [numKeys] using hroom
      have hile : j ≤ ts.length := hj ▸ childIndex_le _ _
      have hic : j < cs.length := by omega
      have hcstruct : Struct (T - 1) h0 (childAt cs j) := hall _ (childAt_mem hic)
      have hnn : isNull (childAt cs j) = false := Struct_not_null hcstruct
      have hFlen : (ts.take j).length = j := by
        simp
        omega
      have hlow0 : ∀ a, (ts.take j).getLast? = some a → a.time_key ≤ t.time_key := by
        intro a ha
        rw [hj, childIndex_take] at ha
        have := front_getLast_not ha
        simp at this
        omega
      have hhigh0 : ∀ b, (ts.drop j).head? = some b → t.time_key ≤ b.time_key := by
        intro b hb
        have hmem : b ∈ ts.drop j := mem_of_head?_eq hb
        rw [hj, childIndex_drop] at hmem
        have := back_mem_sat hmem
        simp at this
        omega
      by_cases hfull : numKeys (childAt cs j) = MAX_TRANSACTIONS
      · -- the child is full: split it, then descend into one of its halves
        rcases hcs : childAt cs j with _ | ⟨yts, ycs, yleaf⟩
        · rw [hcs] at hnn
          simp [isNull] at hnn
        rw [hcs] at hcstruct
        have h5 : yts.length = 2 * T - 1 := by
          rw [hcs] at hfull
          simpa [numKeys, MAX_TRANSACTIONS] using hfull
        have hshape1 : yleaf = true → ycs = [] := by
          intro hl
          subst hl
          exact (Struct_leaf_inv hcstruct).1
        have hshape2 : yleaf = false → ycs.length = 2 * T := by
          intro hl
          subst hl
          obtain ⟨h0', _, _, _, hlen', _⟩ := Struct_node_inv hcstruct
          rw [hlen', h5]
          decide
        obtain ⟨hyS, hzS⟩ := splitChild_struct hcstruct h5
        rcases hsp : BTreeSplitChild ts cs j with ⟨ts1, cs1⟩
        have hspeq := splitChild_eq ts hcs
        rw [hsp] at hspeq
        have hts1 : ts1 = ts.take j ++ yts.getD (T - 1) default :: ts.drop j := by
          have h1 := congrArg Prod.fst hspeq
          simpa using h1
        have hcs1 : cs1 =
            (cs.set j (.node (yts.take (T - 1)) (ycs.take T) yleaf)).take (j + 1)
              ++ BTree.node ((yts.drop T).take (T - 1))
                   (if yleaf then [] else (ycs.drop T).take T) yleaf
                :: (cs.set j (.node (yts.take (T - 1)) (ycs.take T) yleaf)).drop (j + 1) := by
          have h2 := congrArg Prod.snd hspeq
          rw [setChild_eq_set hic] at h2
          simpa using h2
        have htklen : ((cs.set j (BTree.node (yts.take (T - 1)) (ycs.take T) yleaf)).take
            (j + 1)).length = j + 1 := by
          simp
          omega
        have hts1len : ts1.length = ts.length + 1 := by
          rw [hts1]
          simp
          omega
        have hcs1len : cs1.length = cs.length + 1 := by
          rw [hcs1]
          simp
          omega
        have hall1 : ∀ c ∈ cs1, Struct (T - 1) h0 c := by
          intro c hc
          rw [hcs1] at hc
          rcases List.mem_append.mp hc with hc1 | hc2
          · rcases List.mem_or_eq_of_mem_set (List.mem_of_mem_take hc1) with hcold | rfl
            · exact hall c hcold
            · exact hyS
          · rcases List.mem_cons.mp hc2 with rfl | hc3
            · exact hzS
            · rcases List.mem_or_eq_of_mem_set (List.drop_subset _ _ hc3) with hcold | rfl
              · exact hall c hcold
              · exact hyS
        have hcontent : inorderNode ts1 cs1 = inorderNode ts cs := by
          have hcc := splitChild_content j ts cs hlen hic hcs h5 hshape1 hshape2
          rw [hsp] at hcc
          exact hcc
        have hinEq : inorder (BTree.node ts1 cs1 false)
            = inorder (BTree.node ts cs false) := by
          simp only [inorder_node]
          exact hcontent
        have hmed : ts1.getD j default = yts.getD (T - 1) default := by
          rw [hts1]
          have hel : (ts.take j ++ yts.getD (T - 1) default :: ts.drop j)[j]?
              = some (yts.getD (T - 1) default) := by
            rw [List.getElem?_append_right (by omega : (ts.take j).length ≤ j)]
            simp [hFlen]
          rw [List.getD_eq_getElem?_getD, hel]
          rfl
        rw [insertNonFull_step_split fuel t ts cs ts1 cs1 hj hnn (by rw [hcs]; exact hfull ▸ (by rw [hcs])) hsp]
        by_cases hcond : (ts1.getD j default).time_key < t.time_key
        · -- descend to the right of the promoted median
          rw [if_pos hcond]
          have hchild1 : childAt cs1 (j + 1) =
              BTree.node ((yts.drop T).take (T - 1))
                (if yleaf then [] else (ycs.drop T).take T) yleaf := by
            rw [hcs1]
            have hself := childAt_append_self
              ((cs.set j (BTree.node (yts.take (T - 1)) (ycs.take T) yleaf)).take (j + 1))
              ((cs.set j (BTree.node (yts.take (T - 1)) (ycs.take T) yleaf)).drop (j + 1))
              (BTree.node ((yts.drop T).take (T - 1))
                (if yleaf then [] else (ycs.drop T).take T) yleaf)
            rw [htklen] at hself
            exact hself
          have hcroom : numKeys (childAt cs1 (j + 1)) < MAX_TRANSACTIONS := by
            rw [hchild1]
            simp [numKeys, T, MAX_TRANSACTIONS, h5]
          obtain ⟨ihs, ihn, ihl, ihp, ihsorted⟩ :=
            ih t (T - 1) h0 (childAt cs1 (j + 1)) (by rw [hchild1]; exact hzS) hf0 hcroom
          have hlow1 : ∀ a, (ts1.take (j + 1)).getLast? = some a →
              a.time_key ≤ t.time_key := by
            intro a ha
            have htake := take_append_cons_one (ts.take j)
              (yts.getD (T - 1) default) (ts.drop j)
            rw [hFlen] at htake
            rw [hts1, htake, List.getLast?_concat] at ha
            have haeq : a = yts.getD (T - 1) default := by
              simpa using ha.symm
            subst haeq
            rw [← hmed]
            omega
          have hhigh1 : ∀ b, (ts1.drop (j + 1)).head? = some b →
              t.time_key ≤ b.time_key := by
            intro b hb
            have hdrop := drop_append_cons_one (ts.take j)
              (yts.getD (T - 1) default) (ts.drop j)
            rw [hFlen] at hdrop
            rw [hts1, hdrop] at hb
            exact hhigh0 b hb
          obtain ⟨rs, rp, rsort⟩ :=
            replace_child_pres (m := m) ts1 cs1 (j + 1) t _ (by omega) (by omega)
              (by omega) hall1 (by omega) ihs ihp ihsorted hlow1 hhigh1
          refine ⟨rs, ?_, rfl, ?_, ?_⟩
          · simp [numKeys, hts1len]
          · rw [← hinEq]
            exact rp
          · intro hp
            rw [← hinEq] at hp
            exact rsort hp
        · -- descend into the kept low half
          rw [if_neg hcond]
          have hchild1 : childAt cs1 j =
              BTree.node (yts.take (T - 1)) (ycs.take T) yleaf := by
            rw [hcs1]
            rw [childAt_append_left (by omega)]
            rw [childAt_take (by omega)]
            exact childAt_set_self hic _
          have hcroom : numKeys (childAt cs1 j) < MAX_TRANSACTIONS := by
            rw [hchild1]
            simp [numKeys, T, MAX_TRANSACTIONS, h5]
          obtain ⟨ihs, ihn, ihl, ihp, ihsorted⟩ :=
            ih t (T - 1) h0 (childAt cs1 j) (by rw [hchild1]; exact hyS) hf0 hcroom
          have hlow1 : ∀ a, (ts1.take j).getLast? = some a →
              a.time_key ≤ t.time_key := by
            intro a ha
            have htake := List.take_left (ts.take j)
              (yts.getD (T - 1) default :: ts.drop j)
            rw [hFlen] at htake
            rw [hts1, htake] at ha
            exact hlow0 a ha
          have hhigh1 : ∀ b, (ts1.drop j).head? = some b →
              t.time_key ≤ b.time_key := by
            intro b hb
            have hdrop := List.drop_left (ts.take j)
              (yts.getD (T - 1) default :: ts.drop j)
            rw [hFlen] at hdrop
            rw [hts1, hdrop] at hb
            simp only [List.head?_cons, Option.some.injEq] at hb
            subst hb
            rw [← hmed]
            omega
          obtain ⟨rs, rp, rsort⟩ :=
            replace_child_pres (m := m) ts1 cs1 j t _ (by omega) (by omega)
              (by omega) hall1 (by omega) ihs ihp ihsorted hlow1 hhigh1
          refine ⟨rs, ?_, rfl, ?_, ?_⟩
          · simp [numKeys, hts1len]
          · rw [← hinEq]
            exact rp
          · intro hp
            rw [← hinEq] at hp
            exact rsort hp
      · -- the child has room: descend directly
        rw [insertNonFull_step_nosplit fuel t ts cs hj hnn hfull]
        have hcroom : numKeys (childAt cs j) < MAX_TRANSACTIONS := by
          have := numKeys_le hcstruct
          omega
        obtain ⟨ihs, ihn, ihl, ihp, ihsorted⟩ :=
          ih t (T - 1) h0 (childAt cs j) hcstruct hf0 hcroom
        obtain ⟨rs, rp, rsort⟩ :=
          replace_child_pres ts cs j t _ hm hmax hlen hall hic ihs ihp ihsorted hlow0 hhigh0
        exact ⟨rs, by simp [numKeys], rfl, rp, rsort⟩

/-! ### The public insertion entry point and trees built from scratch -/

/-- `insertTransaction` preserves root well-formedness, adds exactly the new
transaction to the history, and preserves sortedness of the history. -/
theorem insertTransaction_pres (x : BTree) (t : Transaction) (hwf : RootWF x) :
    RootWF (insertTransaction x t) ∧
    (inorder (insertTransaction x t)).Perm (t :: inorder x) ∧
    (List.Pairwise tkLe (inorder x) →
      List.Pairwise tkLe (inorder (insertTransaction x t))) := by
  obtain ⟨h, hs, hroot⟩ := hwf
  have hnn : isNull x = false := Struct_not_null hs
  have hdef : insertTransaction x t =
      if numKeys x = MAX_TRANSACTIONS then
        match BTreeSplitChild [] [x] 0 with
        | (ts1, cs1) =>
            BTreeInsertNonFull (height (BTree.node ts1 cs1 false))
              (BTree.node ts1 cs1 false) t
      else BTreeInsertNonFull (height x) x t := by
    unfold insertTransaction
    rw [hnn]
    simp
  rw [hdef]
  by_cases hfull : numKeys x = MAX_TRANSACTIONS
  · rw [if_pos hfull]
    rcases hx : x with _ | ⟨ts, cs, leaf⟩
    · rw [hx] at hnn
      simp [isNull] at hnn
    subst hx
    have h5 : ts.length = 2 * T - 1 := by
      simpa [numKeys, MAX_TRANSACTIONS] using hfull
    have hcs : childAt [BTree.node ts cs leaf] 0 = BTree.node ts cs leaf := rfl
    have hs2 : Struct (T - 1) h (BTree.node ts cs leaf) := by
      refine Struct_mono hs ?_
      simp [numKeys, h5, T]
    have hshape1 : leaf = true → cs = [] := by
      intro hl
      subst hl
      exact (Struct_leaf_inv hs).1
    have hshape2 : leaf = false → cs.length = 2 * T := by
      intro hl
      subst hl
      obtain ⟨h0', _, _, _, hlen', _⟩ := Struct_node_inv hs
      rw [hlen', h5]
      decide
    obtain ⟨hyS, hzS⟩ := splitChild_struct hs2 h5
    rcases hsp : BTreeSplitChild [] [BTree.node ts cs leaf] 0 with ⟨ts1, cs1⟩
    have hspeq := splitChild_eq [] hcs
    rw [hsp] at hspeq
    have hts1 : ts1 = [ts.getD (T - 1) default] := by
      have h1 := congrArg Prod.fst hspeq
      simpa using h1
    have hcs1 : cs1 = [BTree.node (ts.take (T - 1)) (cs.take T) leaf,
        BTree.node ((ts.drop T).take (T - 1))
          (if leaf then [] else (cs.drop T).take T) leaf] := by
      have h2 := congrArg Prod.snd hspeq
      rw [setChild_cons_zero] at h2
      simpa using h2
    have hsS : Struct 0 (h + 1) (BTree.node ts1 cs1 false) := by
      refine Struct.node 0 h ts1 cs1 (by omega) (by rw [hts1]; simp [MAX_TRANSACTIONS, T])
        (by rw [hts1, hcs1]; simp) ?_
      intro c hc
      rw [hcs1] at hc
      rcases List.mem_cons.mp hc with rfl | hc2
      · exact hyS
      · rcases List.mem_cons.mp hc2 with rfl | hc3
        · exact hzS
        · simp at hc3
    have hcontent : inorderNode ts1 cs1 = inorder (BTree.node ts cs leaf) := by
      have hcc := splitChild_content 0 [] [BTree.node ts cs leaf] (by simp) (by simp)
        hcs h5 hshape1 hshape2
      rw [hsp] at hcc
      rw [hcc]
      rfl
    have hh : height (BTree.node ts1 cs1 false) = h + 1 := Struct_height hsS
    obtain ⟨ihs, ihn, ihl, ihp, ihsorted⟩ :=
      insertNonFull_pres (height (BTree.node ts1 cs1 false)) t 0 (h + 1)
        (BTree.node ts1 cs1 false) hsS (by omega) (by simp [numKeys, hts1, MAX_TRANSACTIONS, T])
    show RootWF (BTreeInsertNonFull (height (BTree.node ts1 cs1 false))
        (BTree.node ts1 cs1 false) t) ∧
      (inorder (BTreeInsertNonFull (height (BTree.node ts1 cs1 false))
        (BTree.node ts1 cs1 false) t)).Perm (t :: inorder (BTree.node ts cs leaf)) ∧
      (List.Pairwise tkLe (inorder (BTree.node ts cs leaf)) →
        List.Pairwise tkLe (inorder (BTreeInsertNonFull (height (BTree.node ts1 cs1 false))
          (BTree.node ts1 cs1 false) t)))
    refine ⟨⟨h + 1, ihs, ?_⟩, ?_, ?_⟩
    · intro ts' cs' heq
      have hn1 : numKeys (BTree.node ts1 cs1 false) = 1 := by
        simp [numKeys, hts1]
      have hn2 : numKeys (BTreeInsertNonFull (height (BTree.node ts1 cs1 false))
          (BTree.node ts1 cs1 false) t) = ts'.length := by
        rw [heq]
        rfl
      omega
    · refine ihp.trans ?_
      rw [show inorder (BTree.node ts1 cs1 false) = inorder (BTree.node ts cs leaf) from by
        rw [inorder_node, hcontent]]
    · intro hp
      refine ihsorted ?_
      rw [show inorder (BTree.node ts1 cs1 false) = inorder (BTree.node ts cs leaf) from by
        rw [inorder_node, hcontent]]
      exact hp
  · rw [if_neg hfull]
    have hroom : numKeys x < MAX_TRANSACTIONS := by
      have := numKeys_le hs
      omega
    obtain ⟨ihs, ihn, ihl, ihp, ihsorted⟩ :=
      insertNonFull_pres (height x) t 0 h x hs (by rw [Struct_height hs]) hroom
    refine ⟨⟨h, ihs, ?_⟩, ihp, ihsorted⟩
    intro ts' cs' heq
    rcases hx : x with _ | ⟨ts, cs, leaf⟩
    · rw [hx] at hnn
      simp [isNull] at hnn
    rcases leaf with _ | _
    · -- x internal: its key count was at least 1 and does not shrink
      have h1 := hroot ts cs hx
      have hn2 : numKeys (BTreeInsertNonFull (height x) x t) = ts'.length := by
        rw [heq]
        rfl
      have hn1 : numKeys x = ts.length := by
        rw [hx]
        rfl
      omega
    · -- x is a leaf: the result keeps the leaf flag, contradiction
      exfalso
      have hlx : leafFlag x = true := by
        rw [hx]
        rfl
      rw [heq, hlx] at ihl
      simp [leafFlag] at ihl

/-! ### Trees built by a sequence of public inserts -/

theorem rootWF_empty : RootWF (BTree.node [] [] true) := by
  refine ⟨1, Struct.leaf 0 [] (by simp) (by simp [MAX_TRANSACTIONS, T]), ?_⟩
  intro ts cs heq
  simp at heq

theorem foldl_insert_pres :
    ∀ (txns : List Transaction) (x : BTree), RootWF x →
      RootWF (txns.foldl insertTransaction x) ∧
      (inorder (txns.foldl insertTransaction x)).Perm (txns ++ inorder x) ∧
      (List.Pairwise tkLe (inorder x) →
        List.Pairwise tkLe (inorder (txns.foldl insertTransaction x))) := by
  intro txns
  induction txns with
  | nil =>
    intro x hwf
    exact ⟨hwf, by simp, fun hp => hp⟩
  | cons t rest ih =>
    intro x hwf
    obtain ⟨hw1, hp1, hs1⟩ := insertTransaction_pres x t hwf
    obtain ⟨hw2, hp2, hs2⟩ := ih (insertTransaction x t) hw1
    simp only [List.foldl_cons]
    refine ⟨hw2, ?_, fun hp => hs2 (hs1 hp)⟩
    refine hp2.trans ?_
    refine (List.Perm.append_left rest hp1).trans ?_
    exact List.perm_middle

theorem buildRoot_props (txns : List Transaction) :
    RootWF (buildRoot txns) ∧
    (inorder (buildRoot txns)).Perm txns ∧
    List.Pairwise tkLe (inorder (buildRoot txns)) := by
  obtain ⟨hw, hp, hsrt⟩ := foldl_insert_pres txns (BTree.node [] [] true) rootWF_empty
  refine ⟨hw, ?_, hsrt (by simp)⟩
  simpa using hp

/-! ### Sublist structure of the traversal -/

theorem childAt_inorder_sublist :
    ∀ (i : Nat) (ts : List Transaction) (cs : List BTree), i ≤ ts.length →
      (inorder (childAt cs i)).Sublist (inorderNode ts cs) := by
  intro i
  induction i with
  | zero =>
    intro ts cs _
    cases cs with
    | nil => simp
    | cons c0 cs0 =>
      cases ts with
      | nil => simp
      | cons t ts1 =>
        rw [childAt_cons_zero, inorderNode_cons_cons]
        exact List.sublist_append_left _ _
  | succ j ih =>
    intro ts cs hij
    cases cs with
    | nil => simp
    | cons c0 cs0 =>
      cases ts with
      | nil => simp at hij
      | cons t ts1 =>
        rw [childAt_cons_succ, inorderNode_cons_cons]
        have h1 := ih ts1 cs0 (by simpa using hij)
        exact (List.Sublist.cons t h1).trans (List.sublist_append_right _ _)

theorem keys_sublist : ∀ (ts : List Transaction) (cs : List BTree),
    ts.Sublist (inorderNode ts cs) := by
  intro ts
  induction ts with
  | nil => intro cs; exact List.nil_sublist _
  | cons t ts1 ih =>
    intro cs
    cases cs with
    | nil =>
      rw [inorderNode_keys]
    | cons c0 cs0 =>
      rw [inorderNode_cons_cons]
      exact (List.Sublist.cons₂ t (ih cs0)).trans (List.sublist_append_right _ _)

theorem childAt_of_mem {cs : List BTree} {c : BTree} (h : c ∈ cs) :
    ∃ i, i < cs.length ∧ childAt cs i = c := by
  obtain ⟨i, hi, heq⟩ := List.mem_iff_getElem.mp h
  refine ⟨i, hi, ?_⟩
  unfold childAt
  rw [List.getD_eq_getElem _ _ hi]
  exact heq

theorem drop_head?_getD {i : Nat} {ts : List Transaction} (h : i < ts.length) :
    (ts.drop i).head? = some (ts.getD i default) := by
  rw [List.head?_drop, List.getElem?_eq_getElem h, List.getD_eq_getElem _ _ h]

theorem take_getLast?_getD {i : Nat} {ts : List Transaction} (h : i < ts.length) :
    (ts.take (i + 1)).getLast? = some (ts.getD i default) := by
  have h1 : ts.take (i + 1) = ts.take i ++ [ts.getD i default] := by
    rw [List.take_succ, List.getElem?_eq_getElem h]
    simp only [Option.toList_some, List.getD_eq_getElem _ _ h]
  rw [h1, List.getLast?_concat]

theorem mem_of_getLast?_eq {α} {l : List α} {a : α} (h : l.getLast? = some a) :
    a ∈ l := by
  obtain ⟨ys, hys⟩ := List.getLast?_eq_some_iff.mp h
  rw [hys]
  simp

/-! ### Lifting per-child facts to the children predicates -/

theorem nodesSortedChildren_of_forall :
    ∀ {cs : List BTree}, (∀ c ∈ cs, nodesSorted c) → nodesSortedChildren cs := by
  intro cs
  induction cs with
  | nil => intro _; trivial
  | cons c cs0 ih =>
    intro hall
    exact ⟨hall c (by simp), ih (fun c' hc' => hall c' (by simp [hc']))⟩

theorem keyCountChildren_of_forall :
    ∀ {cs : List BTree}, (∀ c ∈ cs, keyCountOK c) → keyCountChildren cs := by
  intro cs
  induction cs with
  | nil => intro _; trivial
  | cons c cs0 ih =>
    intro hall
    exact ⟨hall c (by simp), ih (fun c' hc' => hall c' (by simp [hc']))⟩

theorem uniformDepthChildren_of_forall :
    ∀ {cs : List BTree} {h : Nat}, (∀ c ∈ cs, uniformDepth c h) →
      uniformDepthChildren cs h := by
  intro cs
  induction cs with
  | nil => intro h _; trivial
  | cons c cs0 ih =>
    intro h hall
    exact ⟨hall c (by simp), ih (fun c' hc' => hall c' (by simp [hc']))⟩

theorem separationChildren_of_forall :
    ∀ {cs : List BTree}, (∀ c ∈ cs, separationOK c) → separationChildren cs := by
  intro cs
  induction cs with
  | nil => intro _; trivial
  | cons c cs0 ih =>
    intro hall
    exact ⟨hall c (by simp), ih (fun c' hc' => hall c' (by simp [hc']))⟩

/-! ### The structural invariant plus global sortedness give the claim-level
b-tree predicates -/

theorem Struct_claims {m h : Nat} {x : BTree} (hs : Struct m h x) :
    List.Pairwise tkLe (inorder x) →
    nodesSorted x ∧ uniformDepth x h ∧ separationOK x ∧
    (T - 1 ≤ m → keyCountOK x) ∧ keyCountRootOK x := by
  induction hs with
  | leaf m ts hm hmax =>
    intro hp
    rw [inorder_node, inorderNode_keys] at hp
    refine ⟨⟨hp, trivial⟩, by simp [uniformDepth], ⟨?_, trivial⟩, ?_, ⟨hmax, trivial⟩⟩
    · intro i hi
      constructor
      · intro a ha
        simp [childAt_nil] at ha
      · intro b hb
        simp [childAt_nil] at hb
    · intro hTm
      exact ⟨le_trans hTm hm, hmax, trivial⟩
  | node m h ts cs hm hmax hlen hall ih =>
    intro hp
    rw [inorder_node] at hp
    have hpc : ∀ c ∈ cs, List.Pairwise tkLe (inorder c) := by
      intro c hc
      obtain ⟨i, hi, hceq⟩ := childAt_of_mem hc
      have hsub := childAt_inorder_sublist i ts cs (by omega)
      rw [hceq] at hsub
      exact hp.sublist hsub
    have hchild : ∀ c ∈ cs,
        nodesSorted c ∧ uniformDepth c h ∧ separationOK c ∧ keyCountOK c := by
      intro c hc
      obtain ⟨h1, h2, h3, h4, _⟩ := ih c hc (hpc c hc)
      exact ⟨h1, h2, h3, h4 (le_refl _)⟩
    have hkc : keyCountChildren cs :=
      keyCountChildren_of_forall (fun c hc => (hchild c hc).2.2.2)
    refine ⟨⟨hp.sublist (keys_sublist ts cs),
        nodesSortedChildren_of_forall (fun c hc => (hchild c hc).1)⟩,
      ?_, ⟨?_, separationChildren_of_forall (fun c hc => (hchild c hc).2.2.1)⟩,
      ?_, ⟨hmax, hkc⟩⟩
    · simp only [uniformDepth]
      exact uniformDepthChildren_of_forall (fun c hc => (hchild c hc).2.1)
    · intro i hi
      constructor
      · have hi' : i < cs.length := by omega
        obtain ⟨P, Q, _, heq, _, hQ⟩ := inorderNode_set_decomp i ts cs hlen hi'
        have hp1 := hp
        rw [heq, List.pairwise_append] at hp1
        obtain ⟨_, hXQ, _⟩ := hp1
        rw [List.pairwise_append] at hXQ
        obtain ⟨_, _, hcross⟩ := hXQ
        intro a ha
        have hkey : ts.getD i default ∈ Q := by
          refine mem_of_head?_eq ?_
          rw [hQ]
          exact drop_head?_getD hi
        exact hcross a ha _ hkey
      · have hi' : i + 1 < cs.length := by omega
        obtain ⟨P, Q, _, heq, hP, _⟩ := inorderNode_set_decomp (i + 1) ts cs hlen hi'
        have hp2 := hp
        rw [heq, List.pairwise_append] at hp2
        obtain ⟨_, _, hcross⟩ := hp2
        intro b hb
        have hkey : ts.getD i default ∈ P := by
          refine mem_of_getLast?_eq ?_
          rw [hP]
          exact take_getLast?_getD hi
        exact hcross _ hkey b (List.mem_append_left _ hb)
    · intro hTm
      exact ⟨le_trans hTm hm, hmax, hkc⟩

/-! ### The shape of the in-order traversal: child 0, key 0, …, key n−1,
child n -/

theorem join_getD_range :
    ∀ (ts : List Transaction),
      ((List.range ts.length).map (fun j => [ts.getD j default])).flatten = ts := by
  intro ts
  induction ts with
  | nil => simp
  | cons t ts1 ih =>
    rw [List.length_cons, List.range_succ_eq_map, List.map_cons, List.flatten_cons,
      List.map_map]
    have hcomp : ((fun j => [(t :: ts1).getD j default]) ∘ Nat.succ)
        = fun j => [ts1.getD j default] := by
      funext j
      rfl
    rw [hcomp, ih]
    rfl

theorem inorderNode_shape :
    ∀ (ts : List Transaction) (cs : List BTree),
      inorderNode ts cs =
        ((List.range ts.length).map
          (fun j => inorder (childAt cs j) ++ [ts.getD j default])).flatten ++
        inorder (childAt cs ts.length) := by
  intro ts
  induction ts with
  | nil =>
    intro cs
    cases cs with
    | nil => simp
    | cons c cs0 => simp
  | cons t ts1 ih =>
    intro cs
    cases cs with
    | nil =>
      rw [inorderNode_keys]
      simp only [childAt_nil, inorder_null, List.nil_append, List.append_nil]
      exact (join_getD_range (t :: ts1)).symm
    | cons c cs0 =>
      rw [inorderNode_cons_cons, ih cs0]
      rw [List.length_cons, List.range_succ_eq_map, List.map_cons, List.flatten_cons,
        List.map_map]
      have hcomp : ((fun j => inorder (childAt (c :: cs0) j)
            ++ [(t :: ts1).getD j default]) ∘ Nat.succ)
          = fun j => inorder (childAt cs0 j) ++ [ts1.getD j default] := by
        funext j
        rfl
      rw [hcomp]
      simp [List.append_assoc]

theorem inorder_shape (ts : List Transaction) (cs : List BTree) (leaf : Bool) :
    inorder (BTree.node ts cs leaf) =
      ((List.range ts.length).map
        (fun j => inorder (childAt cs j) ++ [ts.getD j default])).flatten ++
      inorder (childAt cs ts.length) := by
  rw [inorder_node]
  exact inorderNode_shape ts cs

/-! ### The velocity scan when every stored transaction is recent -/

theorem velocityNode_all (cutoff : Int) :
    ∀ (ts : List Transaction) (cs : List BTree),
      (∀ c ∈ cs, (∀ a ∈ inorder c, cutoff ≤ a.date_time) →
        checkVelocitySpike c cutoff = (inorder c).length) →
      (∀ a ∈ inorderNode ts cs, cutoff ≤ a.date_time) →
      velocityNode ts cs cutoff = (inorderNode ts cs).length := by
  intro ts
  induction ts with
  | nil =>
    intro cs ih hall
    cases cs with
    | nil => rfl
    | cons c cs0 =>
      rw [inorderNode_nil_cons] at hall ⊢
      exact ih c (by simp) hall
  | cons t ts1 ihts =>
    intro cs ih hall
    cases cs with
    | nil =>
      rw [inorderNode_keys] at hall ⊢
      show ((t :: ts1).takeWhile (fun a => decide (cutoff ≤ a.date_time))).length
        = (t :: ts1).length
      rw [List.takeWhile_eq_self_iff.mpr (fun a ha => by simpa using hall a ha)]
    | cons c cs0 =>
      rw [inorderNode_cons_cons] at hall ⊢
      have hc := ih c (by simp) (fun a ha => hall a (by simp [ha]))
      have ht : cutoff ≤ t.date_time := hall t (by simp)
      have hrest := ihts cs0 (fun c' hc' h' => ih c' (by simp [hc']) h')
        (fun a ha => hall a (by
          refine List.mem_append_right _ ?_
          exact List.mem_cons_of_mem t ha))
      show (let count := checkVelocitySpike c cutoff
        if cutoff ≤ t.date_time then count + 1 + velocityNode ts1 cs0 cutoff
        else count) = _
      rw [if_pos ht, hc, hrest]
      simp [List.length_append]
      omega

theorem checkVelocitySpike_all (cutoff : Int) :
    ∀ x : BTree, (∀ a ∈ inorder x, cutoff ≤ a.date_time) →
      checkVelocitySpike x cutoff = (inorder x).length := by
  intro x
  induction x using BTree.recMem with
  | hnull => intro _; rfl
  | hnode ts cs leaf ih =>
    intro hall
    rw [inorder_node] at hall ⊢
    exact velocityNode_all cutoff ts cs ih hall

/-! ### Unfolding `analyzeCustomerForFraud` on a well-formed customer -/

theorem rootWF_numKeys_zero {x : BTree} (hwf : RootWF x) (h0 : numKeys x = 0) :
    x = BTree.node [] [] true := by
  obtain ⟨h, hs, hroot⟩ := hwf
  cases hs with
  | leaf m ts hm hmax =>
    have hts : ts = [] := List.eq_nil_of_length_eq_zero (by simpa [numKeys] using h0)
    rw [hts]
  | node m h ts cs hm hmax hlen hall =>
    have h1 := hroot ts cs rfl
    have h2 : ts.length = 0 := by simpa [numKeys] using h0
    omega

theorem analyze_components {c : Customer} (hwf : RootWF c.b_tree_root) (now : Int) :
    (analyzeCustomerForFraud c now).velocity_count =
        checkVelocitySpike c.b_tree_root (now - SECONDS_IN_HOUR) ∧
    (analyzeCustomerForFraud c now).velocity_level =
        (if TXN_LIMIT_PER_HOUR ≤ checkVelocitySpike c.b_tree_root (now - SECONDS_IN_HOUR)
         then VelocityLevel.Critical
         else if TXN_WARNING_THRESHOLD ≤
            checkVelocitySpike c.b_tree_root (now - SECONDS_IN_HOUR)
         then VelocityLevel.Warning
         else VelocityLevel.Normal) ∧
    (analyzeCustomerForFraud c now).debit_alerts =
        (inorder c.b_tree_root).filter (isDebitAlert c.debit_threshold) ∧
    (analyzeCustomerForFraud c now).credit_alerts =
        (inorder c.b_tree_root).filter (isCreditAlert c.credit_threshold) ∧
    (analyzeCustomerForFraud c now).debit_fraud_count =
        (if TXN_LIMIT_PER_HOUR ≤ checkVelocitySpike c.b_tree_root (now - SECONDS_IN_HOUR)
         then 1 else 0) +
        ((inorder c.b_tree_root).filter (isDebitAlert c.debit_threshold)).length ∧
    (analyzeCustomerForFraud c now).credit_fraud_count =
        ((inorder c.b_tree_root).filter (isCreditAlert c.credit_threshold)).length := by
  have hnn : isNull c.b_tree_root = false := by
    obtain ⟨h, hs, _⟩ := hwf
    exact Struct_not_null hs
  by_cases hz : numKeys c.b_tree_root = 0
  · have hempty : c.b_tree_root = BTree.node [] [] true := rootWF_numKeys_zero hwf hz
    unfold analyzeCustomerForFraud
    rw [hempty]
    norm_num [checkVelocitySpike, velocityNode, TXN_LIMIT_PER_HOUR,
      TXN_WARNING_THRESHOLD, numKeys]
  · unfold analyzeCustomerForFraud
    rw [hnn]
    have hz' : (numKeys c.b_tree_root == 0) = false := by
      simpa using hz
    rw [hz']
    simp only [Bool.or_self, Bool.false_or, if_neg (by simp : ¬(false = true))]
    rw [checkTransactionSpike_eq]
    simp [ge_iff_le]

/-! ### Claim C2: the reported debit alerts and the returned debit count -/

theorem burst25_fields : ∀ a ∈ burst25, a.date_time = 100 ∧ a.amount = 1 ∧ a.type = 'D' := by
  intro a ha
  simp only [burst25, List.mem_map, List.mem_range] at ha
  obtain ⟨j, hj, rfl⟩ := ha
  exact ⟨rfl, rfl, rfl⟩

theorem analyze_mk (cid : Int) (name : String) (txns : List Transaction)
    (dthr cthr : ℚ) (now : Int) :
    (analyzeCustomerForFraud (mkCustomer cid name txns dthr cthr) now).debit_alerts =
      (inorder (buildRoot txns)).filter (isDebitAlert dthr) ∧
    (analyzeCustomerForFraud (mkCustomer cid name txns dthr cthr) now).debit_fraud_count =
      (if TXN_LIMIT_PER_HOUR ≤
          checkVelocitySpike (buildRoot txns) (now - SECONDS_IN_HOUR) then 1 else 0) +
      ((inorder (buildRoot txns)).filter (isDebitAlert dthr)).length ∧
    (analyzeCustomerForFraud (mkCustomer cid name txns dthr cthr) now).velocity_level =
      (if TXN_LIMIT_PER_HOUR ≤
          checkVelocitySpike (buildRoot txns) (now - SECONDS_IN_HOUR)
       then VelocityLevel.Critical
       else if TXN_WARNING_THRESHOLD ≤
          checkVelocitySpike (buildRoot txns) (now - SECONDS_IN_HOUR)
       then VelocityLevel.Warning
       else VelocityLevel.Normal) := by
  have hcomp := analyze_components (c := mkCustomer cid name txns dthr cthr)
    (buildRoot_props txns).1 now
  simp only [mkCustomer] at hcomp
  exact ⟨hcomp.2.2.1, hcomp.2.2.2.2.1, hcomp.2.1⟩

/-- C2 (counterexample): a customer holding 25 recent low-value debits (all
far below the 5000 threshold) is analyzed with a returned debit-alert count of
1 — the critical-velocity bump — although no stored transaction is a debit
above the threshold, so the count does not equal the number of such
transactions. -/
theorem fd_C2_debit_count_counterexample :
    (analyzeCustomerForFraud (mkCustomer 1 "A" burst25 5000 5000) 100).debit_fraud_count
      = 1 ∧
    ((inorder (buildRoot burst25)).filter (isDebitAlert 5000)).length = 0 := by
  obtain ⟨hwf, hperm, _⟩ := buildRoot_props burst25
  have hall : ∀ a ∈ inorder (buildRoot burst25),
      ((100 : Int) - SECONDS_IN_HOUR) ≤ a.date_time := by
    intro a ha
    have hmem : a ∈ burst25 := hperm.mem_iff.mp ha
    have h1 := (burst25_fields a hmem).1
    rw [h1]
    norm_num [SECONDS_IN_HOUR]
  have hv : checkVelocitySpike (buildRoot burst25) (100 - SECONDS_IN_HOUR) = 25 := by
    rw [checkVelocitySpike_all (100 - SECONDS_IN_HOUR) (buildRoot burst25) hall,
      hperm.length_eq]
    decide
  have hfilter : (inorder (buildRoot burst25)).filter (isDebitAlert 5000) = [] := by
    rw [List.filter_eq_nil_iff]
    intro a ha
    have hmem : a ∈ burst25 := hperm.mem_iff.mp ha
    obtain ⟨_, h2, _⟩ := burst25_fields a hmem
    simp only [isDebitAlert, h2, decide_eq_true_eq]
    rintro ⟨_, hlt⟩
    norm_num at hlt
  have hcomp := analyze_mk 1 "A" burst25 5000 5000 100
  refine ⟨?_, by rw [hfilter]; rfl⟩
  rw [hcomp.2.1, hv, hfilter]
  norm_num [TXN_LIMIT_PER_HOUR]

/-- C2 (amended): the debit-alert list is exactly the in-order filter of
stored transactions with type Debit and amount strictly above the customer's
debit threshold, while the returned debit count equals that filter's length
plus one extra increment exactly when the hourly velocity count reaches the
critical limit. -/
theorem fd_C2_debit_alerts_amended (cid : Int) (name : String)
    (txns : List Transaction) (dthr cthr : ℚ) (now : Int) :
    (analyzeCustomerForFraud (mkCustomer cid name txns dthr cthr) now).debit_alerts =
      (inorder (buildRoot txns)).filter (isDebitAlert dthr) ∧
    (analyzeCustomerForFraud (mkCustomer cid name txns dthr cthr) now).debit_fraud_count =
      (if TXN_LIMIT_PER_HOUR ≤
          checkVelocitySpike (buildRoot txns) (now - SECONDS_IN_HOUR) then 1 else 0) +
      ((inorder (buildRoot txns)).filter (isDebitAlert dthr)).length := by
  have hcomp := analyze_mk cid name txns dthr cthr now
  exact ⟨hcomp.1, hcomp.2.1⟩

/-- C3: for every customer built from a sequence of inserts and every `now`,
the reported velocity level is Critical when the velocity count v (with
cutoff now − 3600) satisfies v ≥ 25, Warning when 15 ≤ v < 25, and Normal
when v < 15. -/
theorem fd_C3_velocity_classification (cid : Int) (name : String)
    (txns : List Transaction) (dthr cthr : ℚ) (now : Int) :
    (analyzeCustomerForFraud (mkCustomer cid name txns dthr cthr) now).velocity_level =
      (if TXN_LIMIT_PER_HOUR ≤
          checkVelocitySpike (buildRoot txns) (now - SECONDS_IN_HOUR)
       then VelocityLevel.Critical
       else if TXN_WARNING_THRESHOLD ≤
          checkVelocitySpike (buildRoot txns) (now - SECONDS_IN_HOUR)
       then VelocityLevel.Warning
       else VelocityLevel.Normal) := by
  exact (analyze_mk cid name txns dthr cthr now).2.2

/-- C4: after any sequence of inserts starting from an empty tree, keys are
sorted within each node, the root holds at most 5 keys and every other node
between 2 and 5, all leaves are at the same depth (with no null children
below an internal node), and the subtree separation invariant holds. -/
theorem fd_C4_shape_invariants (txns : List Transaction) :
    nodesSorted (buildRoot txns) ∧ keyCountRootOK (buildRoot txns) ∧
    uniformDepth (buildRoot txns) (height (buildRoot txns)) ∧
    separationOK (buildRoot txns) := by
  obtain ⟨⟨h, hs, hroot⟩, hperm, hsorted⟩ := buildRoot_props txns
  obtain ⟨h1, h2, h3, _, h5⟩ := Struct_claims hs hsorted
  refine ⟨h1, h5, ?_, h3⟩
  rw [Struct_height hs]
  exact h2

/-- C5: in each node the traversal visits child 0, key 0, child 1, key 1, …,
key n−1, child n, and on every tree built by a sequence of inserts the
resulting transaction sequence has non-decreasing time_key. -/
theorem fd_C5_history_traversal (txns ts : List Transaction) (cs : List BTree)
    (leaf : Bool) :
    inorder (BTree.node ts cs leaf) =
      ((List.range ts.length).map
        (fun j => inorder (childAt cs j) ++ [ts.getD j default])).flatten ++
      inorder (childAt cs ts.length) ∧
    List.Pairwise tkLe (inorder (buildRoot txns)) :=
  ⟨inorder_shape ts cs leaf, (buildRoot_props txns).2.2⟩

/-! ### Claim C6: population preservation across successful adds -/

theorem rootAfterAdd_fresh {x : BTree} {t : Transaction}
    (hfresh : ∀ a ∈ inorder x, a.id ≠ t.id) :
    rootAfterAdd x t = insertTransaction x t := by
  unfold rootAfterAdd handleAddTransaction
  have hns : (findTransactionByID x t.id).isSome = false := by
    rw [Bool.eq_false_iff]
    intro hsome
    obtain ⟨a, ha, haid⟩ := (find_isSome_iff x t.id).mp hsome
    exact hfresh a ha haid
  rw [hns]
  simp

theorem foldl_rootAfterAdd_eq :
    ∀ (txns : List Transaction) (x : BTree), RootWF x →
      (txns.map Transaction.id).Nodup →
      (∀ t ∈ txns, ∀ a ∈ inorder x, a.id ≠ t.id) →
      txns.foldl rootAfterAdd x = txns.foldl insertTransaction x := by
  intro txns
  induction txns with
  | nil => intro x _ _ _; rfl
  | cons t rest ih =>
    intro x hwf hnodup hfresh
    rw [List.map_cons, List.nodup_cons] at hnodup
    simp only [List.foldl_cons]
    rw [rootAfterAdd_fresh (fun a ha => hfresh t (by simp) a ha)]
    obtain ⟨hw1, hp1, _⟩ := insertTransaction_pres x t hwf
    refine ih (insertTransaction x t) hw1 hnodup.2 ?_
    intro t' ht' a ha
    have hmem := hp1.mem_iff.mp ha
    rcases List.mem_cons.mp hmem with rfl | hax
    · intro heq
      apply hnodup.1
      rw [heq]
      exact List.mem_map_of_mem Transaction.id ht'
    · exact hfresh t' (by simp [ht']) a hax

/-- C6: after folding a list of pairwise-distinct-id transactions through
`handleAddTransaction` (so every add succeeds), the history has exactly as
many transactions as were added and the multiset of stored ids equals the
multiset of inserted ids. -/
theorem fd_C6_population (txns : List Transaction)
    (hids : (txns.map Transaction.id).Nodup) :
    (inorder (txns.foldl rootAfterAdd (BTree.node [] [] true))).length = txns.length ∧
    ((inorder (txns.foldl rootAfterAdd (BTree.node [] [] true))).map Transaction.id).Perm
      (txns.map Transaction.id) := by
  have heq := foldl_rootAfterAdd_eq txns (BTree.node [] [] true) rootWF_empty hids
    (by intro t _ a ha; simp at ha)
  rw [heq]
  obtain ⟨_, hperm, _⟩ := foldl_insert_pres txns (BTree.node [] [] true) rootWF_empty
  have hperm2 : (inorder (txns.foldl insertTransaction (BTree.node [] [] true))).Perm
      txns := by
    simpa using hperm
  exact ⟨hperm2.length_eq, hperm2.map _⟩

theorem fd_C6_witness :
    (scenarioSix.map Transaction.id).Nodup ∧
    ((inorder (scenarioSix.foldl rootAfterAdd (BTree.node [] [] true))).length
        = scenarioSix.length ∧
      ((inorder (scenarioSix.foldl rootAfterAdd
          (BTree.node [] [] true))).map Transaction.id).Perm
        (scenarioSix.map Transaction.id)) :=
  ⟨by decide, fd_C6_population scenarioSix (by decide)⟩
